import Mathlib

/-!
# Numeric primitives of `src/uds/numeric.h`

A shallow embedding of the fixed-width endian codecs and of the numeric
helpers declared in `numeric.h`.

* A `byte` is an unsigned 8-bit quantity, `Fin 256`.
* A buffer is a `List byte`; a C pointer `data` into it is the index of the
  byte it points at, so `buffer + *offset` is the index `offset`.
* `uint16_t`, `uint32_t`, `uint64_t` and `size_t` values are natural numbers.
  A store keeps the `sizeof(TYPE)` low-order bytes of its value; the cursor
  update `*offset += sizeof(TYPE)` is computed modulo `SIZE_MAX + 1`, with
  `SIZE_MAX` a parameter (`size_t` comes from a header that is not part of
  `numeric.h`).
* An access outside the buffer (undefined behaviour in C) makes the embedded
  function return `none`.
* `BYTE_ORDER` is a parameter of every codec, since the header selects the
  byte swaps with `#if BYTE_ORDER == LITTLE_ENDIAN`.
-/

set_option autoImplicit false

namespace Numeric

/-- An unsigned 8-bit memory cell (`typedef unsigned char byte`). -/
abbrev byte := Fin 256

/-- The two values `BYTE_ORDER` is compared with in `numeric.h`. -/
inductive ByteOrder where
  | LITTLE_ENDIAN
  | BIG_ENDIAN
  deriving DecidableEq, Repr

/-! ## Bytes and the integers they represent -/

/-- The low byte of a number. -/
def lowByte (x : Nat) : byte := ⟨x % 256, Nat.mod_lt x (by decide)⟩

/-- The `size` low-order bytes of `x`, least significant byte first. -/
def leBytes : Nat → Nat → List byte
  | 0, _ => []
  | size + 1, x => lowByte x :: leBytes size (x / 256)

/-- The number whose bytes, least significant first, are `bs`. -/
def leValue : List byte → Nat
  | [] => 0
  | b :: bs => b.val + 256 * leValue bs

/-- The number whose bytes, most significant first, are `bs`. -/
def beValue (bs : List byte) : Nat :=
  bs.foldl (fun acc b => acc * 256 + b.val) 0

/-- The `size` low-order bytes of `x`, most significant byte first. -/
def beBytes (size x : Nat) : List byte := (leBytes size x).reverse

/-- The object representation of the `size`-byte unsigned integer `x` on a
machine of the given byte order. -/
def nativeBytes (bo : ByteOrder) (size x : Nat) : List byte :=
  match bo with
  | ByteOrder.LITTLE_ENDIAN => leBytes size x
  | ByteOrder.BIG_ENDIAN => beBytes size x

/-- The unsigned integer whose object representation is `bs` on a machine of
the given byte order. -/
def nativeValue (bo : ByteOrder) (bs : List byte) : Nat :=
  match bo with
  | ByteOrder.LITTLE_ENDIAN => leValue bs
  | ByteOrder.BIG_ENDIAN => beValue bs

/-! ## Unaligned memory access: `GET_UNALIGNED` and `PUT_UNALIGNED` -/

/-- The byte indices covered by the packed wrapper struct of a `size`-byte
type placed at address `addr`. -/
def unalignedIndices (addr size : Nat) : List Nat := List.range' addr size

/-- Read the bytes at the given indices, in order; `none` as soon as one index
is outside the buffer. -/
def loadAt (mem : List byte) : List Nat → Option (List byte)
  | [] => some []
  | i :: is =>
    match mem[i]? with
    | none => none
    | some b => (loadAt mem is).map (fun bs => b :: bs)

/-- Write the given bytes at the given indices, in order; `none` as soon as
one index is outside the buffer. -/
def storeAt (mem : List byte) : List Nat → List byte → Option (List byte)
  | i :: is, b :: bs =>
    if i < mem.length then storeAt (mem.set i b) is bs else none
  | _, _ => some mem

/-- The macro `GET_UNALIGNED(TYPE, ADDR)` with `size = sizeof(TYPE)`: the value of the
`size` bytes at `addr`, read as an unsigned integer of the machine. -/
def GET_UNALIGNED (bo : ByteOrder) (size : Nat) (mem : List byte) (addr : Nat) :
    Option Nat :=
  (loadAt mem (unalignedIndices addr size)).map (nativeValue bo)

/-- The macro `PUT_UNALIGNED(TYPE, ADDR, VALUE)` with `size = sizeof(TYPE)`: the object
representation of `value` written over the `size` bytes at `addr`. -/
def PUT_UNALIGNED (bo : ByteOrder) (size : Nat) (mem : List byte) (addr value : Nat) :
    Option (List byte) :=
  storeAt mem (unalignedIndices addr size) (nativeBytes bo size value)

/-! ## Byte swaps

`__builtin_bswap64`, `__builtin_bswap32` (compiler built-ins) and `bswap_16`
(`<byteswap.h>`) return their argument with the order of its bytes reversed. -/

/-- Reverse the order of the `size` bytes of `x`. -/
def bswap (size x : Nat) : Nat := leValue (leBytes size x).reverse

/-- The built-in `__builtin_bswap64`. -/
def __builtin_bswap64 (x : Nat) : Nat := bswap 8 x

/-- The built-in `__builtin_bswap32`. -/
def __builtin_bswap32 (x : Nat) : Nat := bswap 4 x

/-- The library function `bswap_16`. -/
def bswap_16 (x : Nat) : Nat := bswap 2 x

/-! ## The codecs of `numeric.h` -/

/-- The function `getUInt64BE(data)`. -/
def getUInt64BE (bo : ByteOrder) (mem : List byte) (data : Nat) : Option Nat := do
  let num ← GET_UNALIGNED bo 8 mem data
  let num := if bo = ByteOrder.LITTLE_ENDIAN then __builtin_bswap64 num else num
  pure num

/-- The function `decodeUInt64BE(buffer, offset, decoded)`: the new `*offset` and
`*decoded`. -/
def decodeUInt64BE (bo : ByteOrder) (SIZE_MAX : Nat) (buffer : List byte) (offset : Nat) :
    Option (Nat × Nat) := do
  let decoded ← getUInt64BE bo buffer offset
  let offset := (offset + 8) % (SIZE_MAX + 1)
  pure (offset, decoded)

/-- The function `storeUInt64BE(data, num)`: the buffer after the store. -/
def storeUInt64BE (bo : ByteOrder) (mem : List byte) (data num : Nat) :
    Option (List byte) :=
  let num := if bo = ByteOrder.LITTLE_ENDIAN then __builtin_bswap64 num else num
  PUT_UNALIGNED bo 8 mem data num

/-- The function `encodeUInt64BE(data, offset, toEncode)`: the buffer after the store and
the new `*offset`. -/
def encodeUInt64BE (bo : ByteOrder) (SIZE_MAX : Nat) (data : List byte) (offset toEncode : Nat) :
    Option (List byte × Nat) := do
  let data ← storeUInt64BE bo data offset toEncode
  let offset := (offset + 8) % (SIZE_MAX + 1)
  pure (data, offset)

/-- The function `getUInt32BE(data)`. -/
def getUInt32BE (bo : ByteOrder) (mem : List byte) (data : Nat) : Option Nat := do
  let num ← GET_UNALIGNED bo 4 mem data
  let num := if bo = ByteOrder.LITTLE_ENDIAN then __builtin_bswap32 num else num
  pure num

/-- The function `decodeUInt32BE(buffer, offset, decoded)`: the new `*offset` and
`*decoded`. -/
def decodeUInt32BE (bo : ByteOrder) (SIZE_MAX : Nat) (buffer : List byte) (offset : Nat) :
    Option (Nat × Nat) := do
  let decoded ← getUInt32BE bo buffer offset
  let offset := (offset + 4) % (SIZE_MAX + 1)
  pure (offset, decoded)

/-- The function `storeUInt32BE(data, num)`: the buffer after the store. -/
def storeUInt32BE (bo : ByteOrder) (mem : List byte) (data num : Nat) :
    Option (List byte) :=
  let num := if bo = ByteOrder.LITTLE_ENDIAN then __builtin_bswap32 num else num
  PUT_UNALIGNED bo 4 mem data num

/-- The function `encodeUInt32BE(data, offset, toEncode)`: the buffer after the store and
the new `*offset`. -/
def encodeUInt32BE (bo : ByteOrder) (SIZE_MAX : Nat) (data : List byte) (offset toEncode : Nat) :
    Option (List byte × Nat) := do
  let data ← storeUInt32BE bo data offset toEncode
  let offset := (offset + 4) % (SIZE_MAX + 1)
  pure (data, offset)

/-- The function `getUInt16BE(data)`. -/
def getUInt16BE (bo : ByteOrder) (mem : List byte) (data : Nat) : Option Nat := do
  let num ← GET_UNALIGNED bo 2 mem data
  let num := if bo = ByteOrder.LITTLE_ENDIAN then bswap_16 num else num
  pure num

/-- The function `decodeUInt16BE(buffer, offset, decoded)`: the new `*offset` and
`*decoded`. -/
def decodeUInt16BE (bo : ByteOrder) (SIZE_MAX : Nat) (buffer : List byte) (offset : Nat) :
    Option (Nat × Nat) := do
  let decoded ← getUInt16BE bo buffer offset
  let offset := (offset + 2) % (SIZE_MAX + 1)
  pure (offset, decoded)

/-- The function `storeUInt16BE(data, num)`: the buffer after the store. -/
def storeUInt16BE (bo : ByteOrder) (mem : List byte) (data num : Nat) :
    Option (List byte) :=
  let num := if bo = ByteOrder.LITTLE_ENDIAN then bswap_16 num else num
  PUT_UNALIGNED bo 2 mem data num

/-- The function `encodeUInt16BE(data, offset, toEncode)`: the buffer after the store and
the new `*offset`. -/
def encodeUInt16BE (bo : ByteOrder) (SIZE_MAX : Nat) (data : List byte) (offset toEncode : Nat) :
    Option (List byte × Nat) := do
  let data ← storeUInt16BE bo data offset toEncode
  let offset := (offset + 2) % (SIZE_MAX + 1)
  pure (data, offset)

/-- The function `getUInt64LE(data)`. -/
def getUInt64LE (bo : ByteOrder) (mem : List byte) (data : Nat) : Option Nat := do
  let num ← GET_UNALIGNED bo 8 mem data
  let num := if bo ≠ ByteOrder.LITTLE_ENDIAN then __builtin_bswap64 num else num
  pure num

/-- The function `storeUInt64LE(data, num)`: the buffer after the store. -/
def storeUInt64LE (bo : ByteOrder) (mem : List byte) (data num : Nat) :
    Option (List byte) :=
  let num := if bo ≠ ByteOrder.LITTLE_ENDIAN then __builtin_bswap64 num else num
  PUT_UNALIGNED bo 8 mem data num

/-- The function `getUInt32LE(data)`. -/
def getUInt32LE (bo : ByteOrder) (mem : List byte) (data : Nat) : Option Nat := do
  let num ← GET_UNALIGNED bo 4 mem data
  let num := if bo ≠ ByteOrder.LITTLE_ENDIAN then __builtin_bswap32 num else num
  pure num

/-- The function `storeUInt32LE(data, num)`: the buffer after the store. -/
def storeUInt32LE (bo : ByteOrder) (mem : List byte) (data num : Nat) :
    Option (List byte) :=
  let num := if bo ≠ ByteOrder.LITTLE_ENDIAN then __builtin_bswap32 num else num
  PUT_UNALIGNED bo 4 mem data num

/-- The function `getUInt16LE(data)`. -/
def getUInt16LE (bo : ByteOrder) (mem : List byte) (data : Nat) : Option Nat := do
  let num ← GET_UNALIGNED bo 2 mem data
  let num := if bo ≠ ByteOrder.LITTLE_ENDIAN then bswap_16 num else num
  pure num

/-- The function `storeUInt16LE(data, num)`: the buffer after the store. -/
def storeUInt16LE (bo : ByteOrder) (mem : List byte) (data num : Nat) :
    Option (List byte) :=
  let num := if bo ≠ ByteOrder.LITTLE_ENDIAN then bswap_16 num else num
  PUT_UNALIGNED bo 2 mem data num

/-! ## Overflow-checked multiplication -/

/-- The largest `uint64_t`. -/
def UINT64_MAX : Nat := 18446744073709551615

/-- Modelled from the spec: `numeric.h` only declares `multiplyWouldOverflow`
("Multiply two uint64_t and check for overflow. Does division."); its body is
in `numeric.c`, which is missing. The spec gives the division-based test
`a != 0 && b > MAX/a`. -/
def multiplyWouldOverflow (a b : Nat) : Bool :=
  a != 0 && decide (b > UINT64_MAX / a)

/-! ## Scalar min/max -/

/-- The function `minInt(a, b)`. -/
def minInt (a b : Int) : Int := if a < b then a else b

/-- The function `maxInt(a, b)`. -/
def maxInt (a b : Int) : Int := if a > b then a else b

/-- The function `minSizeT(a, b)`. -/
def minSizeT (a b : Nat) : Nat := if a < b then a else b

/-- The function `maxSizeT(a, b)`. -/
def maxSizeT (a b : Nat) : Nat := if a > b then a else b

/-- The function `minUInt64(a, b)`. -/
def minUInt64 (a b : Nat) : Nat := if a < b then a else b

/-! ## Number theory -/

/-- Modelled from the spec: `numeric.h` only declares `greatestCommonDivisor`;
its body is in `numeric.c`, which is missing. The spec describes the Euclidean
algorithm by repeated remainder, with `gcd(0, b) = b`, `gcd(a, 0) = a` and
`gcd(0, 0) = 0`: while `b` is not zero, `(a, b)` becomes `(b, a % b)`; the
result is `a`. -/
def greatestCommonDivisor (a b : Nat) : Nat :=
  if b = 0 then a else greatestCommonDivisor b (a % b)
termination_by b
decreasing_by exact Nat.mod_lt a (by omega)

/-- Modelled from the spec: `numeric.h` only declares `leastCommonMultiple`;
its body is in `numeric.c`, which is missing. The spec computes
`(a / gcd(a,b)) * b` and defines the result as 0 when either input is 0. The
product is a `uint64_t`, so it is reduced modulo `2^64`; a division by zero
makes the embedded function return `none`. -/
def leastCommonMultiple (a b : Nat) : Option Nat :=
  if a = 0 ∨ b = 0 then some 0
  else
    let g := greatestCommonDivisor a b
    if g = 0 then none else some (a / g * b % 2 ^ 64)

/-! ## Specification vocabulary -/

/-- The buffer `new` has the length of `old` and the same byte at every index
outside the window `[o, o + n)`. -/
def unchangedOutside (o n : Nat) (old new : List byte) : Prop :=
  new.length = old.length ∧ ∀ i, (i < o ∨ o + n ≤ i) → new[i]? = old[i]?

/-- The reader `get`, applied to a pointer at the start of a window, is a
bijection between the windows of `n` bytes and the `W`-bit values: it is
injective on such windows, every `W`-bit value is read from one of them, and
what it reads from one of them is a `W`-bit value. -/
def windowBijection (n W : Nat) (get : List byte → Nat → Option Nat) : Prop :=
  (∀ w1 w2 : List byte, w1.length = n → w2.length = n → get w1 0 = get w2 0 → w1 = w2) ∧
  (∀ v, v < 2 ^ W → ∃ w : List byte, w.length = n ∧ get w 0 = some v) ∧
  (∀ w : List byte, w.length = n → ∃ v, v < 2 ^ W ∧ get w 0 = some v)

/-! ## Bytes and values -/

theorem leBytes_length (size x : Nat) : (leBytes size x).length = size := by
  induction size generalizing x with
  | zero => rfl
  | succ n ih => simp [leBytes, ih]

theorem leValue_leBytes (size x : Nat) : leValue (leBytes size x) = x % 256 ^ size := by
  induction size generalizing x with
  | zero => simp [leBytes, leValue, Nat.mod_one]
  | succ n ih =>
    simp only [leBytes, leValue, ih, lowByte]
    rw [pow_succ', Nat.mod_mul]

theorem leBytes_leValue (bs : List byte) : leBytes bs.length (leValue bs) = bs := by
  induction bs with
  | nil => rfl
  | cons b bs ih =>
    have hb := b.isLt
    have h1 : (b.val + 256 * leValue bs) % 256 = b.val := by omega
    have h2 : (b.val + 256 * leValue bs) / 256 = leValue bs := by omega
    simp only [List.length_cons, leBytes, leValue, h2, ih, lowByte, h1]

theorem leValue_lt (bs : List byte) : leValue bs < 256 ^ bs.length := by
  induction bs with
  | nil => simp [leValue]
  | cons b bs ih =>
    have hb := b.isLt
    simp only [leValue, List.length_cons, pow_succ]
    omega

theorem leValue_append (as bs : List byte) :
    leValue (as ++ bs) = leValue as + 256 ^ as.length * leValue bs := by
  induction as with
  | nil => simp [leValue]
  | cons a as ih =>
    rw [List.cons_append, leValue, leValue, ih, List.length_cons, pow_succ]
    ring

theorem foldl_beValue (bs : List byte) (acc : Nat) :
    bs.foldl (fun acc b => acc * 256 + b.val) acc
      = acc * 256 ^ bs.length + leValue bs.reverse := by
  induction bs generalizing acc with
  | nil => simp [leValue]
  | cons b bs ih =>
    simp only [List.foldl_cons, ih, List.reverse_cons, leValue_append, List.length_reverse,
      List.length_cons, leValue, pow_succ]
    ring

theorem beValue_eq_leValue_reverse (bs : List byte) : beValue bs = leValue bs.reverse := by
  simp [beValue, foldl_beValue]

theorem beBytes_length (size x : Nat) : (beBytes size x).length = size := by
  simp [beBytes, leBytes_length]

theorem nativeBytes_length (bo : ByteOrder) (size x : Nat) :
    (nativeBytes bo size x).length = size := by
  cases bo <;> simp [nativeBytes, leBytes_length, beBytes_length]

/-! ## Byte swaps against the two byte orders -/

theorem bswap_leValue (bs : List byte) : bswap bs.length (leValue bs) = beValue bs := by
  simp [bswap, leBytes_leValue, beValue_eq_leValue_reverse]

theorem bswap_beValue (bs : List byte) : bswap bs.length (beValue bs) = leValue bs := by
  have h := leBytes_leValue bs.reverse
  rw [List.length_reverse] at h
  simp [bswap, beValue_eq_leValue_reverse, h]

theorem leBytes_bswap (size x : Nat) : leBytes size (bswap size x) = beBytes size x := by
  have h := leBytes_leValue (leBytes size x).reverse
  rw [List.length_reverse, leBytes_length] at h
  simpa [bswap, beBytes] using h

theorem beBytes_bswap (size x : Nat) : beBytes size (bswap size x) = leBytes size x := by
  simp [beBytes, leBytes_bswap]

/-! ## Loads and stores over a window -/

theorem loadAt_length (mem : List byte) (is : List Nat) (bs : List byte)
    (h : loadAt mem is = some bs) : bs.length = is.length := by
  induction is generalizing bs with
  | nil => simp [loadAt] at h; simp [← h]
  | cons i is ih =>
    simp only [loadAt] at h
    cases hi : mem[i]? with
    | none => simp [hi] at h
    | some b =>
      simp only [hi, Option.map_eq_some'] at h
      obtain ⟨bs', h1, h2⟩ := h
      simp [← h2, ih bs' h1]

theorem loadAt_range (mem : List byte) (o n : Nat) (h : o + n ≤ mem.length) :
    loadAt mem (List.range' o n) = some ((mem.drop o).take n) := by
  induction n generalizing o with
  | zero => simp [loadAt]
  | succ n ih =>
    have ho : o < mem.length := by omega
    rw [List.range'_succ, loadAt, List.getElem?_eq_getElem ho]
    simp only [ih (o + 1) (by omega), Option.map_some']
    rw [List.drop_eq_getElem_cons ho, List.take_succ_cons]

theorem storeAt_range (mem : List byte) (o : Nat) (bs : List byte)
    (h : o + bs.length ≤ mem.length) :
    storeAt mem (List.range' o bs.length) bs
      = some (mem.take o ++ bs ++ mem.drop (o + bs.length)) := by
  induction bs generalizing o mem with
  | nil => simp [storeAt]
  | cons b bs ih =>
    simp only [List.length_cons] at h
    have ho : o < mem.length := by omega
    rw [List.length_cons, List.range'_succ, storeAt, if_pos ho,
      ih (mem.set o b) (o + 1) (by simp; omega)]
    have h1 : (mem.set o b).take (o + 1) = mem.take o ++ [b] := by
      rw [List.take_succ, List.set_take, List.set_eq_of_length_le (by simp),
        List.getElem?_set_self ho]
      rfl
    have h2 : (mem.set o b).drop (o + 1 + bs.length) = mem.drop (o + (bs.length + 1)) := by
      rw [List.drop_set_of_lt b mem (by omega)]
      congr 1
      omega
    rw [h1, h2]
    simp

/-! ## The codecs do not depend on `BYTE_ORDER` -/

theorem getBE_form (bo : ByteOrder) (size : Nat) (mem : List byte) (addr : Nat) :
    (GET_UNALIGNED bo size mem addr).bind
        (fun num => some (if bo = ByteOrder.LITTLE_ENDIAN then bswap size num else num))
      = (loadAt mem (unalignedIndices addr size)).map beValue := by
  unfold GET_UNALIGNED
  cases h : loadAt mem (unalignedIndices addr size) with
  | none => rfl
  | some bs =>
    have hl : bs.length = size := by
      rw [loadAt_length mem _ bs h]; simp [unalignedIndices]
    cases bo
    · simp [nativeValue, ← hl, bswap_leValue]
    · simp [nativeValue]

theorem getLE_form (bo : ByteOrder) (size : Nat) (mem : List byte) (addr : Nat) :
    (GET_UNALIGNED bo size mem addr).bind
        (fun num => some (if bo ≠ ByteOrder.LITTLE_ENDIAN then bswap size num else num))
      = (loadAt mem (unalignedIndices addr size)).map leValue := by
  unfold GET_UNALIGNED
  cases h : loadAt mem (unalignedIndices addr size) with
  | none => rfl
  | some bs =>
    have hl : bs.length = size := by
      rw [loadAt_length mem _ bs h]; simp [unalignedIndices]
    cases bo
    · simp [nativeValue]
    · simp [nativeValue, ← hl, bswap_beValue]

theorem storeBE_form (bo : ByteOrder) (size : Nat) (mem : List byte) (addr num : Nat) :
    PUT_UNALIGNED bo size mem addr
        (if bo = ByteOrder.LITTLE_ENDIAN then bswap size num else num)
      = storeAt mem (unalignedIndices addr size) (beBytes size num) := by
  cases bo
  · simp [PUT_UNALIGNED, nativeBytes, leBytes_bswap]
  · simp [PUT_UNALIGNED, nativeBytes]

theorem storeLE_form (bo : ByteOrder) (size : Nat) (mem : List byte) (addr num : Nat) :
    PUT_UNALIGNED bo size mem addr
        (if bo ≠ ByteOrder.LITTLE_ENDIAN then bswap size num else num)
      = storeAt mem (unalignedIndices addr size) (leBytes size num) := by
  cases bo
  · simp [PUT_UNALIGNED, nativeBytes]
  · simp [PUT_UNALIGNED, nativeBytes, beBytes_bswap]

theorem getUInt64BE_eq (bo : ByteOrder) (mem : List byte) (data : Nat) :
    getUInt64BE bo mem data = (loadAt mem (unalignedIndices data 8)).map beValue :=
  getBE_form bo 8 mem data

theorem getUInt32BE_eq (bo : ByteOrder) (mem : List byte) (data : Nat) :
    getUInt32BE bo mem data = (loadAt mem (unalignedIndices data 4)).map beValue :=
  getBE_form bo 4 mem data

theorem getUInt16BE_eq (bo : ByteOrder) (mem : List byte) (data : Nat) :
    getUInt16BE bo mem data = (loadAt mem (unalignedIndices data 2)).map beValue :=
  getBE_form bo 2 mem data

theorem getUInt64LE_eq (bo : ByteOrder) (mem : List byte) (data : Nat) :
    getUInt64LE bo mem data = (loadAt mem (unalignedIndices data 8)).map leValue :=
  getLE_form bo 8 mem data

theorem getUInt32LE_eq (bo : ByteOrder) (mem : List byte) (data : Nat) :
    getUInt32LE bo mem data = (loadAt mem (unalignedIndices data 4)).map leValue :=
  getLE_form bo 4 mem data

theorem getUInt16LE_eq (bo : ByteOrder) (mem : List byte) (data : Nat) :
    getUInt16LE bo mem data = (loadAt mem (unalignedIndices data 2)).map leValue :=
  getLE_form bo 2 mem data

theorem storeUInt64BE_eq (bo : ByteOrder) (mem : List byte) (data num : Nat) :
    storeUInt64BE bo mem data num = storeAt mem (unalignedIndices data 8) (beBytes 8 num) :=
  storeBE_form bo 8 mem data num

theorem storeUInt32BE_eq (bo : ByteOrder) (mem : List byte) (data num : Nat) :
    storeUInt32BE bo mem data num = storeAt mem (unalignedIndices data 4) (beBytes 4 num) :=
  storeBE_form bo 4 mem data num

theorem storeUInt16BE_eq (bo : ByteOrder) (mem : List byte) (data num : Nat) :
    storeUInt16BE bo mem data num = storeAt mem (unalignedIndices data 2) (beBytes 2 num) :=
  storeBE_form bo 2 mem data num

theorem storeUInt64LE_eq (bo : ByteOrder) (mem : List byte) (data num : Nat) :
    storeUInt64LE bo mem data num = storeAt mem (unalignedIndices data 8) (leBytes 8 num) :=
  storeLE_form bo 8 mem data num

theorem storeUInt32LE_eq (bo : ByteOrder) (mem : List byte) (data num : Nat) :
    storeUInt32LE bo mem data num = storeAt mem (unalignedIndices data 4) (leBytes 4 num) :=
  storeLE_form bo 4 mem data num

theorem storeUInt16LE_eq (bo : ByteOrder) (mem : List byte) (data num : Nat) :
    storeUInt16LE bo mem data num = storeAt mem (unalignedIndices data 2) (leBytes 2 num) :=
  storeLE_form bo 2 mem data num

/-! ## Windows of a buffer -/

theorem loadAt_window (mem : List byte) (o n : Nat) (h : o + n ≤ mem.length) :
    loadAt mem (unalignedIndices o n) = some ((mem.drop o).take n) :=
  loadAt_range mem o n h

theorem storeAt_window (mem : List byte) (o n : Nat) (bs : List byte) (hn : bs.length = n)
    (h : o + n ≤ mem.length) :
    storeAt mem (unalignedIndices o n) bs = some (mem.take o ++ bs ++ mem.drop (o + n)) := by
  subst hn
  exact storeAt_range mem o bs h

theorem splice_length (mem : List byte) (o n : Nat) (bs : List byte) (hn : bs.length = n)
    (h : o + n ≤ mem.length) :
    (mem.take o ++ bs ++ mem.drop (o + n)).length = mem.length := by
  simp only [List.length_append, List.length_take, List.length_drop, hn]
  omega

theorem splice_window (mem : List byte) (o n : Nat) (bs : List byte) (hn : bs.length = n)
    (h : o + n ≤ mem.length) :
    ((mem.take o ++ bs ++ mem.drop (o + n)).drop o).take n = bs := by
  have ho : (mem.take o).length = o := by
    rw [List.length_take]; omega
  rw [List.append_assoc, List.drop_left' ho, List.take_left' hn]

theorem loadAt_splice (mem : List byte) (o n : Nat) (bs : List byte) (hn : bs.length = n)
    (h : o + n ≤ mem.length) :
    loadAt (mem.take o ++ bs ++ mem.drop (o + n)) (unalignedIndices o n) = some bs := by
  rw [loadAt_window _ o n (by rw [splice_length mem o n bs hn h]; exact h),
    splice_window mem o n bs hn h]

theorem beValue_beBytes (size x : Nat) : beValue (beBytes size x) = x % 256 ^ size := by
  rw [beValue_eq_leValue_reverse, beBytes, List.reverse_reverse, leValue_leBytes]

/-- Storing big-endian and reading big-endian at the same place returns the
value, reduced to the width. -/
theorem load_store_BE (mem : List byte) (o n x : Nat) (h : o + n ≤ mem.length) :
    (storeAt mem (unalignedIndices o n) (beBytes n x)).bind
        (fun m => (loadAt m (unalignedIndices o n)).map beValue)
      = some (x % 256 ^ n) := by
  rw [storeAt_window mem o n _ (beBytes_length n x) h]
  simp only [Option.some_bind, loadAt_splice mem o n _ (beBytes_length n x) h,
    Option.map_some', beValue_beBytes]

/-- Storing little-endian and reading little-endian at the same place returns
the value, reduced to the width. -/
theorem load_store_LE (mem : List byte) (o n x : Nat) (h : o + n ≤ mem.length) :
    (storeAt mem (unalignedIndices o n) (leBytes n x)).bind
        (fun m => (loadAt m (unalignedIndices o n)).map leValue)
      = some (x % 256 ^ n) := by
  rw [storeAt_window mem o n _ (leBytes_length n x) h]
  simp only [Option.some_bind, loadAt_splice mem o n _ (leBytes_length n x) h,
    Option.map_some', leValue_leBytes]

theorem encodeUInt64BE_eq (bo : ByteOrder) (SIZE_MAX : Nat) (data : List byte)
    (offset toEncode : Nat) :
    encodeUInt64BE bo SIZE_MAX data offset toEncode
      = (storeUInt64BE bo data offset toEncode).map
          (fun m => (m, (offset + 8) % (SIZE_MAX + 1))) := by
  unfold encodeUInt64BE
  cases storeUInt64BE bo data offset toEncode <;> rfl

theorem encodeUInt32BE_eq (bo : ByteOrder) (SIZE_MAX : Nat) (data : List byte)
    (offset toEncode : Nat) :
    encodeUInt32BE bo SIZE_MAX data offset toEncode
      = (storeUInt32BE bo data offset toEncode).map
          (fun m => (m, (offset + 4) % (SIZE_MAX + 1))) := by
  unfold encodeUInt32BE
  cases storeUInt32BE bo data offset toEncode <;> rfl

theorem encodeUInt16BE_eq (bo : ByteOrder) (SIZE_MAX : Nat) (data : List byte)
    (offset toEncode : Nat) :
    encodeUInt16BE bo SIZE_MAX data offset toEncode
      = (storeUInt16BE bo data offset toEncode).map
          (fun m => (m, (offset + 2) % (SIZE_MAX + 1))) := by
  unfold encodeUInt16BE
  cases storeUInt16BE bo data offset toEncode <;> rfl

theorem decodeUInt64BE_eq (bo : ByteOrder) (SIZE_MAX : Nat) (buffer : List byte)
    (offset : Nat) :
    decodeUInt64BE bo SIZE_MAX buffer offset
      = (getUInt64BE bo buffer offset).map (fun d => ((offset + 8) % (SIZE_MAX + 1), d)) := by
  unfold decodeUInt64BE
  cases getUInt64BE bo buffer offset <;> rfl

theorem decodeUInt32BE_eq (bo : ByteOrder) (SIZE_MAX : Nat) (buffer : List byte)
    (offset : Nat) :
    decodeUInt32BE bo SIZE_MAX buffer offset
      = (getUInt32BE bo buffer offset).map (fun d => ((offset + 4) % (SIZE_MAX + 1), d)) := by
  unfold decodeUInt32BE
  cases getUInt32BE bo buffer offset <;> rfl

theorem decodeUInt16BE_eq (bo : ByteOrder) (SIZE_MAX : Nat) (buffer : List byte)
    (offset : Nat) :
    decodeUInt16BE bo SIZE_MAX buffer offset
      = (getUInt16BE bo buffer offset).map (fun d => ((offset + 2) % (SIZE_MAX + 1), d)) := by
  unfold decodeUInt16BE
  cases getUInt16BE bo buffer offset <;> rfl

/-! ## Claims -/

/-- C1. Big-endian cursor round trip: for each width W in 16, 32, 64, every
W-bit value `v`, every buffer and every start offset `o` with
`o + W/8 ≤ buffer.length`, and either native byte order, `encodeUIntW_BE` run
from offset `o` succeeds, and `decodeUIntW_BE` run from offset `o` on the
resulting buffer decodes `v`. -/
theorem C1_encode_decode_BE_round_trip (bo : ByteOrder) (SIZE_MAX : Nat)
    (buffer : List byte) (o v : Nat) :
    (o + 2 ≤ buffer.length → v < 2 ^ 16 →
      (encodeUInt16BE bo SIZE_MAX buffer o v).bind
          (fun r => (decodeUInt16BE bo SIZE_MAX r.1 o).map (fun r2 => r2.2)) = some v) ∧
    (o + 4 ≤ buffer.length → v < 2 ^ 32 →
      (encodeUInt32BE bo SIZE_MAX buffer o v).bind
          (fun r => (decodeUInt32BE bo SIZE_MAX r.1 o).map (fun r2 => r2.2)) = some v) ∧
    (o + 8 ≤ buffer.length → v < 2 ^ 64 →
      (encodeUInt64BE bo SIZE_MAX buffer o v).bind
          (fun r => (decodeUInt64BE bo SIZE_MAX r.1 o).map (fun r2 => r2.2)) = some v) := by
  refine ⟨fun h hv => ?_, fun h hv => ?_, fun h hv => ?_⟩
  · rw [encodeUInt16BE_eq, storeUInt16BE_eq,
      storeAt_window buffer o 2 _ (beBytes_length 2 v) h]
    simp only [Option.map_some', Option.some_bind, decodeUInt16BE_eq, getUInt16BE_eq,
      loadAt_splice buffer o 2 _ (beBytes_length 2 v) h, beValue_beBytes]
    exact congrArg some (Nat.mod_eq_of_lt hv)
  · rw [encodeUInt32BE_eq, storeUInt32BE_eq,
      storeAt_window buffer o 4 _ (beBytes_length 4 v) h]
    simp only [Option.map_some', Option.some_bind, decodeUInt32BE_eq, getUInt32BE_eq,
      loadAt_splice buffer o 4 _ (beBytes_length 4 v) h, beValue_beBytes]
    exact congrArg some (Nat.mod_eq_of_lt hv)
  · rw [encodeUInt64BE_eq, storeUInt64BE_eq,
      storeAt_window buffer o 8 _ (beBytes_length 8 v) h]
    simp only [Option.map_some', Option.some_bind, decodeUInt64BE_eq, getUInt64BE_eq,
      loadAt_splice buffer o 8 _ (beBytes_length 8 v) h, beValue_beBytes]
    exact congrArg some (Nat.mod_eq_of_lt hv)

theorem C1_witness :
    (encodeUInt16BE ByteOrder.LITTLE_ENDIAN 4294967295 [7, 7, 7, 7, 7, 7, 7, 7, 7] 1 0xBEEF).bind
          (fun r => (decodeUInt16BE ByteOrder.LITTLE_ENDIAN 4294967295 r.1 1).map
            (fun r2 => r2.2)) = some 0xBEEF ∧
    (encodeUInt32BE ByteOrder.LITTLE_ENDIAN 4294967295 [7, 7, 7, 7, 7, 7, 7, 7, 7] 1 0xBEEF).bind
          (fun r => (decodeUInt32BE ByteOrder.LITTLE_ENDIAN 4294967295 r.1 1).map
            (fun r2 => r2.2)) = some 0xBEEF ∧
    (encodeUInt64BE ByteOrder.LITTLE_ENDIAN 4294967295 [7, 7, 7, 7, 7, 7, 7, 7, 7] 1 0xBEEF).bind
          (fun r => (decodeUInt64BE ByteOrder.LITTLE_ENDIAN 4294967295 r.1 1).map
            (fun r2 => r2.2)) = some 0xBEEF :=
  have h := C1_encode_decode_BE_round_trip ByteOrder.LITTLE_ENDIAN 4294967295
    [7, 7, 7, 7, 7, 7, 7, 7, 7] 1 0xBEEF
  ⟨h.1 (by decide) (by decide), h.2.1 (by decide) (by decide),
    h.2.2 (by decide) (by decide)⟩

/-! ## Byte layout -/

theorem shift_mask_eq (v k : Nat) : (v >>> (8 * k)) &&& 0xFF = v / 256 ^ k % 256 := by
  have h : (0xFF : Nat) = 2 ^ 8 - 1 := by norm_num
  rw [h, Nat.and_pow_two_sub_one_eq_mod, Nat.shiftRight_eq_div_pow, pow_mul]
  norm_num

theorem leBytes_getElem? (size x i : Nat) (h : i < size) :
    (leBytes size x)[i]? = some (lowByte (x / 256 ^ i)) := by
  induction size generalizing x i with
  | zero => omega
  | succ n ih =>
    cases i with
    | zero => simp [leBytes]
    | succ i =>
      simp only [leBytes, List.getElem?_cons_succ]
      rw [ih (x / 256) i (by omega), Nat.div_div_eq_div_mul, pow_succ']

theorem beBytes_getElem? (size x i : Nat) (h : i < size) :
    (beBytes size x)[i]? = some (lowByte (x / 256 ^ (size - 1 - i))) := by
  unfold beBytes
  rw [List.getElem?_reverse (by rw [leBytes_length]; exact h), leBytes_length,
    leBytes_getElem? size x _ (by omega)]

theorem splice_getElem?_inside (mem : List byte) (o n : Nat) (bs : List byte)
    (hn : bs.length = n) (h : o + n ≤ mem.length) (i : Nat) (hi : i < n) :
    (mem.take o ++ bs ++ mem.drop (o + n))[o + i]? = bs[i]? := by
  have ho : (mem.take o).length = o := by
    rw [List.length_take]; omega
  rw [List.append_assoc, List.getElem?_append_right (by omega), ho,
    List.getElem?_append_left (by omega)]
  congr 1
  omega

theorem splice_getElem?_outside (mem : List byte) (o n : Nat) (bs : List byte)
    (hn : bs.length = n) (h : o + n ≤ mem.length) (i : Nat) (hi : i < o ∨ o + n ≤ i) :
    (mem.take o ++ bs ++ mem.drop (o + n))[i]? = mem[i]? := by
  have ho : (mem.take o).length = o := by
    rw [List.length_take]; omega
  rcases hi with hi | hi
  · rw [List.append_assoc, List.getElem?_append_left (by omega), List.getElem?_take_of_lt hi]
  · rw [List.getElem?_append_right (by simp only [List.length_append, ho, hn]; omega)]
    simp only [List.length_append, ho, hn, List.getElem?_drop]
    congr 1
    omega

theorem splice_unchangedOutside (mem : List byte) (o n : Nat) (bs : List byte)
    (hn : bs.length = n) (h : o + n ≤ mem.length) :
    unchangedOutside o n mem (mem.take o ++ bs ++ mem.drop (o + n)) :=
  ⟨splice_length mem o n bs hn h, fun i hi => splice_getElem?_outside mem o n bs hn h i hi⟩

/-- C2. Little-endian round trip: for each width W in 16, 32, 64, every W-bit
value `v`, every buffer and every pointer `o` into it with at least W/8 bytes
from `o` on, and either native byte order, `storeUIntW_LE` at `o` succeeds and
`getUIntW_LE` at `o` on the resulting buffer returns `v`. -/
theorem C2_store_get_LE_round_trip (bo : ByteOrder) (buffer : List byte) (o v : Nat) :
    (o + 2 ≤ buffer.length → v < 2 ^ 16 →
      (storeUInt16LE bo buffer o v).bind (fun m => getUInt16LE bo m o) = some v) ∧
    (o + 4 ≤ buffer.length → v < 2 ^ 32 →
      (storeUInt32LE bo buffer o v).bind (fun m => getUInt32LE bo m o) = some v) ∧
    (o + 8 ≤ buffer.length → v < 2 ^ 64 →
      (storeUInt64LE bo buffer o v).bind (fun m => getUInt64LE bo m o) = some v) := by
  refine ⟨fun h hv => ?_, fun h hv => ?_, fun h hv => ?_⟩
  · simp only [storeUInt16LE_eq, getUInt16LE_eq, load_store_LE buffer o 2 v h]
    exact congrArg some (Nat.mod_eq_of_lt hv)
  · simp only [storeUInt32LE_eq, getUInt32LE_eq, load_store_LE buffer o 4 v h]
    exact congrArg some (Nat.mod_eq_of_lt hv)
  · simp only [storeUInt64LE_eq, getUInt64LE_eq, load_store_LE buffer o 8 v h]
    exact congrArg some (Nat.mod_eq_of_lt hv)

theorem C2_witness :
    (storeUInt16LE ByteOrder.BIG_ENDIAN [9, 9, 9, 9, 9, 9, 9, 9, 9, 9] 2 0xCAFE).bind
        (fun m => getUInt16LE ByteOrder.BIG_ENDIAN m 2) = some 0xCAFE ∧
    (storeUInt32LE ByteOrder.BIG_ENDIAN [9, 9, 9, 9, 9, 9, 9, 9, 9, 9] 2 0xCAFE).bind
        (fun m => getUInt32LE ByteOrder.BIG_ENDIAN m 2) = some 0xCAFE ∧
    (storeUInt64LE ByteOrder.BIG_ENDIAN [9, 9, 9, 9, 9, 9, 9, 9, 9, 9] 2 0xCAFE).bind
        (fun m => getUInt64LE ByteOrder.BIG_ENDIAN m 2) = some 0xCAFE :=
  have h := C2_store_get_LE_round_trip ByteOrder.BIG_ENDIAN
    [9, 9, 9, 9, 9, 9, 9, 9, 9, 9] 2 0xCAFE
  ⟨h.1 (by decide) (by decide), h.2.1 (by decide) (by decide),
    h.2.2 (by decide) (by decide)⟩

theorem stored_BE_bytes (mem : List byte) (o n v : Nat) (h : o + n ≤ mem.length) :
    ∃ m, storeAt mem (unalignedIndices o n) (beBytes n v) = some m ∧
      ∀ i, i < n →
        (m[o + i]?).map (fun b => b.val) = some ((v >>> (8 * (n - 1 - i))) &&& 0xFF) := by
  refine ⟨_, storeAt_window mem o n _ (beBytes_length n v) h, fun i hi => ?_⟩
  rw [splice_getElem?_inside mem o n _ (beBytes_length n v) h i hi,
    beBytes_getElem? n v i hi, shift_mask_eq]
  rfl

theorem stored_LE_bytes (mem : List byte) (o n v : Nat) (h : o + n ≤ mem.length) :
    ∃ m, storeAt mem (unalignedIndices o n) (leBytes n v) = some m ∧
      ∀ i, i < n → (m[o + i]?).map (fun b => b.val) = some ((v >>> (8 * i)) &&& 0xFF) := by
  refine ⟨_, storeAt_window mem o n _ (leBytes_length n v) h, fun i hi => ?_⟩
  rw [splice_getElem?_inside mem o n _ (leBytes_length n v) h i hi,
    leBytes_getElem? n v i hi, shift_mask_eq]
  rfl

/-- C3. Big-endian byte layout: for each width W in 16, 32, 64 with n = W/8,
every value `v` and either native byte order, `storeUIntW_BE(data, v)` on a
pointer `o` with `n` bytes available succeeds and leaves
`data[i] = (v >> (8*(n-1-i))) & 0xFF` for every `i < n`; and
`storeUInt32BE` of `0x01020304` writes the bytes `01 02 03 04`. -/
theorem C3_store_BE_byte_layout (bo : ByteOrder) (buffer : List byte) (o v : Nat) :
    (o + 2 ≤ buffer.length →
      ∃ m, storeUInt16BE bo buffer o v = some m ∧ ∀ i, i < 2 →
        (m[o + i]?).map (fun b => b.val) = some ((v >>> (8 * (2 - 1 - i))) &&& 0xFF)) ∧
    (o + 4 ≤ buffer.length →
      ∃ m, storeUInt32BE bo buffer o v = some m ∧ ∀ i, i < 4 →
        (m[o + i]?).map (fun b => b.val) = some ((v >>> (8 * (4 - 1 - i))) &&& 0xFF)) ∧
    (o + 8 ≤ buffer.length →
      ∃ m, storeUInt64BE bo buffer o v = some m ∧ ∀ i, i < 8 →
        (m[o + i]?).map (fun b => b.val) = some ((v >>> (8 * (8 - 1 - i))) &&& 0xFF)) ∧
    (o + 4 ≤ buffer.length →
      storeUInt32BE bo buffer o 0x01020304
        = some (buffer.take o ++ [0x01, 0x02, 0x03, 0x04] ++ buffer.drop (o + 4))) := by
  refine ⟨fun h => ?_, fun h => ?_, fun h => ?_, fun h => ?_⟩
  · rw [storeUInt16BE_eq]; exact stored_BE_bytes buffer o 2 v h
  · rw [storeUInt32BE_eq]; exact stored_BE_bytes buffer o 4 v h
  · rw [storeUInt64BE_eq]; exact stored_BE_bytes buffer o 8 v h
  · rw [storeUInt32BE_eq, storeAt_window buffer o 4 _ (beBytes_length 4 _) h]
    rfl

theorem C3_witness :
    (∃ m, storeUInt16BE ByteOrder.LITTLE_ENDIAN [0, 0, 0, 0, 0, 0, 0, 0, 0] 1 0x1234 = some m ∧
      ∀ i, i < 2 →
        (m[1 + i]?).map (fun b => b.val) = some ((0x1234 >>> (8 * (2 - 1 - i))) &&& 0xFF)) ∧
    (∃ m, storeUInt32BE ByteOrder.LITTLE_ENDIAN [0, 0, 0, 0, 0, 0, 0, 0, 0] 1 0x1234 = some m ∧
      ∀ i, i < 4 →
        (m[1 + i]?).map (fun b => b.val) = some ((0x1234 >>> (8 * (4 - 1 - i))) &&& 0xFF)) ∧
    (∃ m, storeUInt64BE ByteOrder.LITTLE_ENDIAN [0, 0, 0, 0, 0, 0, 0, 0, 0] 1 0x1234 = some m ∧
      ∀ i, i < 8 →
        (m[1 + i]?).map (fun b => b.val) = some ((0x1234 >>> (8 * (8 - 1 - i))) &&& 0xFF)) ∧
    storeUInt32BE ByteOrder.LITTLE_ENDIAN [0, 0, 0, 0, 0, 0, 0, 0, 0] 1 0x01020304
      = some [0, 0x01, 0x02, 0x03, 0x04, 0, 0, 0, 0] :=
  have h := C3_store_BE_byte_layout ByteOrder.LITTLE_ENDIAN [0, 0, 0, 0, 0, 0, 0, 0, 0] 1 0x1234
  ⟨h.1 (by decide), h.2.1 (by decide), h.2.2.1 (by decide), h.2.2.2 (by decide)⟩

/-- C4. Little-endian byte layout: for each width W in 16, 32, 64 with
n = W/8, every value `v` and either native byte order, `storeUIntW_LE(data, v)`
on a pointer `o` with `n` bytes available succeeds and leaves
`data[i] = (v >> (8*i)) & 0xFF` for every `i < n`; and `storeUInt32LE` of
`0x01020304` writes the bytes `04 03 02 01`. -/
theorem C4_store_LE_byte_layout (bo : ByteOrder) (buffer : List byte) (o v : Nat) :
    (o + 2 ≤ buffer.length →
      ∃ m, storeUInt16LE bo buffer o v = some m ∧ ∀ i, i < 2 →
        (m[o + i]?).map (fun b => b.val) = some ((v >>> (8 * i)) &&& 0xFF)) ∧
    (o + 4 ≤ buffer.length →
      ∃ m, storeUInt32LE bo buffer o v = some m ∧ ∀ i, i < 4 →
        (m[o + i]?).map (fun b => b.val) = some ((v >>> (8 * i)) &&& 0xFF)) ∧
    (o + 8 ≤ buffer.length →
      ∃ m, storeUInt64LE bo buffer o v = some m ∧ ∀ i, i < 8 →
        (m[o + i]?).map (fun b => b.val) = some ((v >>> (8 * i)) &&& 0xFF)) ∧
    (o + 4 ≤ buffer.length →
      storeUInt32LE bo buffer o 0x01020304
        = some (buffer.take o ++ [0x04, 0x03, 0x02, 0x01] ++ buffer.drop (o + 4))) := by
  refine ⟨fun h => ?_, fun h => ?_, fun h => ?_, fun h => ?_⟩
  · rw [storeUInt16LE_eq]; exact stored_LE_bytes buffer o 2 v h
  · rw [storeUInt32LE_eq]; exact stored_LE_bytes buffer o 4 v h
  · rw [storeUInt64LE_eq]; exact stored_LE_bytes buffer o 8 v h
  · rw [storeUInt32LE_eq, storeAt_window buffer o 4 _ (leBytes_length 4 _) h]
    rfl

theorem C4_witness :
    (∃ m, storeUInt16LE ByteOrder.BIG_ENDIAN [0, 0, 0, 0, 0, 0, 0, 0, 0] 1 0x1234 = some m ∧
      ∀ i, i < 2 → (m[1 + i]?).map (fun b => b.val) = some ((0x1234 >>> (8 * i)) &&& 0xFF)) ∧
    (∃ m, storeUInt32LE ByteOrder.BIG_ENDIAN [0, 0, 0, 0, 0, 0, 0, 0, 0] 1 0x1234 = some m ∧
      ∀ i, i < 4 → (m[1 + i]?).map (fun b => b.val) = some ((0x1234 >>> (8 * i)) &&& 0xFF)) ∧
    (∃ m, storeUInt64LE ByteOrder.BIG_ENDIAN [0, 0, 0, 0, 0, 0, 0, 0, 0] 1 0x1234 = some m ∧
      ∀ i, i < 8 → (m[1 + i]?).map (fun b => b.val) = some ((0x1234 >>> (8 * i)) &&& 0xFF)) ∧
    storeUInt32LE ByteOrder.BIG_ENDIAN [0, 0, 0, 0, 0, 0, 0, 0, 0] 1 0x01020304
      = some [0, 0x04, 0x03, 0x02, 0x01, 0, 0, 0, 0] :=
  have h := C4_store_LE_byte_layout ByteOrder.BIG_ENDIAN [0, 0, 0, 0, 0, 0, 0, 0, 0] 1 0x1234
  ⟨h.1 (by decide), h.2.1 (by decide), h.2.2.1 (by decide), h.2.2.2 (by decide)⟩

/-! ## Positional value of a window -/

theorem leValue_eq_sum (bs : List byte) :
    leValue bs = ∑ i in Finset.range bs.length, (bs.getD i 0).val * 256 ^ i := by
  induction bs with
  | nil => simp [leValue]
  | cons b bs ih =>
    rw [leValue, List.length_cons, Finset.sum_range_succ', ih, Finset.mul_sum]
    simp only [List.getD_cons_succ, List.getD_cons_zero, pow_zero, mul_one, pow_succ]
    rw [Nat.add_comm]
    congr 1
    apply Finset.sum_congr rfl
    intro i _
    ring

theorem beValue_eq_sum (bs : List byte) :
    beValue bs
      = ∑ i in Finset.range bs.length, (bs.getD i 0).val * 256 ^ (bs.length - 1 - i) := by
  rw [beValue_eq_leValue_reverse, leValue_eq_sum, List.length_reverse,
    ← Finset.sum_range_reflect]
  apply Finset.sum_congr rfl
  intro i hi
  have hi' : i < bs.length := Finset.mem_range.mp hi
  congr 2
  rw [List.getD_eq_getElem?_getD, List.getD_eq_getElem?_getD,
    List.getElem?_reverse (by omega)]
  congr 2
  omega

theorem window_getD (mem : List byte) (o n i : Nat) (h : o + n ≤ mem.length) (hi : i < n) :
    ((mem.drop o).take n).getD i 0 = mem.get ⟨o + i, by omega⟩ := by
  rw [List.getD_eq_getElem?_getD, List.getElem?_take_of_lt hi, List.getElem?_drop,
    List.getElem?_eq_getElem (by omega)]
  rfl

theorem window_length (mem : List byte) (o n : Nat) (h : o + n ≤ mem.length) :
    ((mem.drop o).take n).length = n := by
  rw [List.length_take, List.length_drop]; omega

theorem window_leValue (mem : List byte) (o n : Nat) (h : o + n ≤ mem.length) :
    leValue ((mem.drop o).take n)
      = ∑ i : Fin n, (mem.get ⟨o + i.val, by omega⟩).val * 256 ^ i.val := by
  rw [leValue_eq_sum, window_length mem o n h, Finset.sum_range]
  apply Finset.sum_congr rfl
  intro i _
  rw [window_getD mem o n i.val h i.isLt]

theorem window_beValue (mem : List byte) (o n : Nat) (h : o + n ≤ mem.length) :
    beValue ((mem.drop o).take n)
      = ∑ i : Fin n, (mem.get ⟨o + i.val, by omega⟩).val * 256 ^ (n - 1 - i.val) := by
  rw [beValue_eq_sum, window_length mem o n h, Finset.sum_range]
  apply Finset.sum_congr rfl
  intro i _
  rw [window_getD mem o n i.val h i.isLt]

/-- C5. Get equals the positional reference value: for each width W in
16, 32, 64 with n = W/8, every buffer and pointer `o` with the `n` bytes
`b[0..n-1]` at `o` inside the buffer, and either native byte order,
`getUIntW_BE` returns the sum over `i` of `b[i] * 256^(n-1-i)` and
`getUIntW_LE` returns the sum over `i` of `b[i] * 256^i`. -/
theorem C5_get_positional_value (bo : ByteOrder) (buffer : List byte) (o : Nat) :
    (∀ h : o + 2 ≤ buffer.length,
      getUInt16BE bo buffer o
        = some (∑ i : Fin 2, (buffer.get ⟨o + i.val, by omega⟩).val * 256 ^ (2 - 1 - i.val)) ∧
      getUInt16LE bo buffer o
        = some (∑ i : Fin 2, (buffer.get ⟨o + i.val, by omega⟩).val * 256 ^ i.val)) ∧
    (∀ h : o + 4 ≤ buffer.length,
      getUInt32BE bo buffer o
        = some (∑ i : Fin 4, (buffer.get ⟨o + i.val, by omega⟩).val * 256 ^ (4 - 1 - i.val)) ∧
      getUInt32LE bo buffer o
        = some (∑ i : Fin 4, (buffer.get ⟨o + i.val, by omega⟩).val * 256 ^ i.val)) ∧
    (∀ h : o + 8 ≤ buffer.length,
      getUInt64BE bo buffer o
        = some (∑ i : Fin 8, (buffer.get ⟨o + i.val, by omega⟩).val * 256 ^ (8 - 1 - i.val)) ∧
      getUInt64LE bo buffer o
        = some (∑ i : Fin 8, (buffer.get ⟨o + i.val, by omega⟩).val * 256 ^ i.val)) := by
  refine ⟨fun h => ⟨?_, ?_⟩, fun h => ⟨?_, ?_⟩, fun h => ⟨?_, ?_⟩⟩
  · rw [getUInt16BE_eq, loadAt_window buffer o 2 h, Option.map_some', window_beValue buffer o 2 h]
  · rw [getUInt16LE_eq, loadAt_window buffer o 2 h, Option.map_some', window_leValue buffer o 2 h]
  · rw [getUInt32BE_eq, loadAt_window buffer o 4 h, Option.map_some', window_beValue buffer o 4 h]
  · rw [getUInt32LE_eq, loadAt_window buffer o 4 h, Option.map_some', window_leValue buffer o 4 h]
  · rw [getUInt64BE_eq, loadAt_window buffer o 8 h, Option.map_some', window_beValue buffer o 8 h]
  · rw [getUInt64LE_eq, loadAt_window buffer o 8 h, Option.map_some', window_leValue buffer o 8 h]

theorem C5_witness :
    (getUInt16BE ByteOrder.LITTLE_ENDIAN [0xAA, 0x12, 0x34, 0x56, 0x78, 0x9A, 0xBC, 0xDE, 0xF0, 0xBB] 1
        = some 0x1234 ∧
      getUInt16LE ByteOrder.LITTLE_ENDIAN [0xAA, 0x12, 0x34, 0x56, 0x78, 0x9A, 0xBC, 0xDE, 0xF0, 0xBB] 1
        = some 0x3412) ∧
    (getUInt32BE ByteOrder.LITTLE_ENDIAN [0xAA, 0x12, 0x34, 0x56, 0x78, 0x9A, 0xBC, 0xDE, 0xF0, 0xBB] 1
        = some 0x12345678 ∧
      getUInt32LE ByteOrder.LITTLE_ENDIAN [0xAA, 0x12, 0x34, 0x56, 0x78, 0x9A, 0xBC, 0xDE, 0xF0, 0xBB] 1
        = some 0x78563412) ∧
    (getUInt64BE ByteOrder.LITTLE_ENDIAN [0xAA, 0x12, 0x34, 0x56, 0x78, 0x9A, 0xBC, 0xDE, 0xF0, 0xBB] 1
        = some 0x123456789ABCDEF0 ∧
      getUInt64LE ByteOrder.LITTLE_ENDIAN [0xAA, 0x12, 0x34, 0x56, 0x78, 0x9A, 0xBC, 0xDE, 0xF0, 0xBB] 1
        = some 0xF0DEBC9A78563412) := by
  have h := C5_get_positional_value ByteOrder.LITTLE_ENDIAN
    [0xAA, 0x12, 0x34, 0x56, 0x78, 0x9A, 0xBC, 0xDE, 0xF0, 0xBB] 1
  have h2 := h.1 (by decide)
  have h4 := h.2.1 (by decide)
  have h8 := h.2.2 (by decide)
  simp only [Fin.sum_univ_succ, Fin.sum_univ_zero] at h2 h4 h8
  exact ⟨h2, h4, h8⟩

/-! ## The byte swaps in arithmetic form -/

theorem bswap_16_eq (x : Nat) : bswap_16 x = x % 256 * 256 + x / 256 % 256 := by
  simp only [bswap_16, bswap, leBytes, lowByte, List.reverse_cons, List.reverse_nil,
    List.nil_append, List.cons_append, leValue]
  omega

theorem __builtin_bswap32_eq (x : Nat) :
    __builtin_bswap32 x
      = x % 256 * 256 ^ 3 + x / 256 % 256 * 256 ^ 2 + x / 256 ^ 2 % 256 * 256
        + x / 256 ^ 3 % 256 := by
  simp only [__builtin_bswap32, bswap, leBytes, lowByte, List.reverse_cons, List.reverse_nil,
    List.nil_append, List.cons_append, leValue, Nat.div_div_eq_div_mul]
  norm_num
  ring

theorem __builtin_bswap64_eq (x : Nat) :
    __builtin_bswap64 x
      = x % 256 * 256 ^ 7 + x / 256 % 256 * 256 ^ 6 + x / 256 ^ 2 % 256 * 256 ^ 5
        + x / 256 ^ 3 % 256 * 256 ^ 4 + x / 256 ^ 4 % 256 * 256 ^ 3
        + x / 256 ^ 5 % 256 * 256 ^ 2 + x / 256 ^ 6 % 256 * 256 + x / 256 ^ 7 % 256 := by
  simp only [__builtin_bswap64, bswap, leBytes, lowByte, List.reverse_cons, List.reverse_nil,
    List.nil_append, List.cons_append, leValue, Nat.div_div_eq_div_mul]
  norm_num
  ring

/-- The model of `bswap_16` is the shift-and-mask expression of `<byteswap.h>`. -/
theorem bswap_16_eq_shift_mask (x : Nat) :
    bswap_16 x = ((x >>> 8) &&& 0xff) ||| ((x &&& 0xff) <<< 8) := by
  have h : (0xff : Nat) = 2 ^ 8 - 1 := by norm_num
  have hlt : x / 2 ^ 8 % 2 ^ 8 < 2 ^ 8 := Nat.mod_lt _ (by norm_num)
  rw [bswap_16_eq, h, Nat.and_pow_two_sub_one_eq_mod, Nat.and_pow_two_sub_one_eq_mod,
    Nat.shiftRight_eq_div_pow, Nat.shiftLeft_eq, Nat.lor_comm, Nat.mul_comm (x % 2 ^ 8),
    ← Nat.mul_add_lt_is_or hlt]
  norm_num
  omega

/-! ## Success under the buffer-sufficiency precondition -/

theorem getBE_window (mem : List byte) (o n : Nat) (h : o + n ≤ mem.length) :
    (loadAt mem (unalignedIndices o n)).map beValue = some (beValue ((mem.drop o).take n)) := by
  rw [loadAt_window mem o n h, Option.map_some']

theorem getLE_window (mem : List byte) (o n : Nat) (h : o + n ≤ mem.length) :
    (loadAt mem (unalignedIndices o n)).map leValue = some (leValue ((mem.drop o).take n)) := by
  rw [loadAt_window mem o n h, Option.map_some']

theorem storeBE_window (mem : List byte) (o n v : Nat) (h : o + n ≤ mem.length) :
    storeAt mem (unalignedIndices o n) (beBytes n v)
      = some (mem.take o ++ beBytes n v ++ mem.drop (o + n)) :=
  storeAt_window mem o n _ (beBytes_length n v) h

theorem storeLE_window (mem : List byte) (o n v : Nat) (h : o + n ≤ mem.length) :
    storeAt mem (unalignedIndices o n) (leBytes n v)
      = some (mem.take o ++ leBytes n v ++ mem.drop (o + n)) :=
  storeAt_window mem o n _ (leBytes_length n v) h

theorem offset_no_wrap (SIZE_MAX len o n : Nat) (hsize : len ≤ SIZE_MAX) (h : o + n ≤ len) :
    (o + n) % (SIZE_MAX + 1) = o + n :=
  Nat.mod_eq_of_lt (by omega)

/-- C6. Cursor wrappers advance by exactly the width: for each width W in
16, 32, 64, every buffer (an object, so its length fits in `size_t`) and every
offset `o` with `o + W/8 ≤ buffer.length`, `decodeUIntW_BE` started at `o`
yields the value `getUIntW_BE(buffer + o)` returns and leaves the offset at
`o + W/8`, and `encodeUIntW_BE` started at `o` leaves the buffer
`storeUIntW_BE(buffer + o, v)` leaves and the offset at `o + W/8`. -/
theorem C6_cursor_advances_by_width (bo : ByteOrder) (SIZE_MAX : Nat) (buffer : List byte)
    (o v : Nat) (hsize : buffer.length ≤ SIZE_MAX) :
    (o + 2 ≤ buffer.length →
      (∃ d, getUInt16BE bo buffer o = some d ∧
        decodeUInt16BE bo SIZE_MAX buffer o = some (o + 2, d)) ∧
      (∃ m, storeUInt16BE bo buffer o v = some m ∧
        encodeUInt16BE bo SIZE_MAX buffer o v = some (m, o + 2))) ∧
    (o + 4 ≤ buffer.length →
      (∃ d, getUInt32BE bo buffer o = some d ∧
        decodeUInt32BE bo SIZE_MAX buffer o = some (o + 4, d)) ∧
      (∃ m, storeUInt32BE bo buffer o v = some m ∧
        encodeUInt32BE bo SIZE_MAX buffer o v = some (m, o + 4))) ∧
    (o + 8 ≤ buffer.length →
      (∃ d, getUInt64BE bo buffer o = some d ∧
        decodeUInt64BE bo SIZE_MAX buffer o = some (o + 8, d)) ∧
      (∃ m, storeUInt64BE bo buffer o v = some m ∧
        encodeUInt64BE bo SIZE_MAX buffer o v = some (m, o + 8))) := by
  refine ⟨fun h => ⟨?_, ?_⟩, fun h => ⟨?_, ?_⟩, fun h => ⟨?_, ?_⟩⟩
  · have hg := getBE_window buffer o 2 h
    rw [← getUInt16BE_eq bo] at hg
    exact ⟨_, hg, by rw [decodeUInt16BE_eq, hg, Option.map_some',
      offset_no_wrap SIZE_MAX _ o 2 hsize h]⟩
  · have hs := storeBE_window buffer o 2 v h
    rw [← storeUInt16BE_eq bo] at hs
    exact ⟨_, hs, by rw [encodeUInt16BE_eq, hs, Option.map_some',
      offset_no_wrap SIZE_MAX _ o 2 hsize h]⟩
  · have hg := getBE_window buffer o 4 h
    rw [← getUInt32BE_eq bo] at hg
    exact ⟨_, hg, by rw [decodeUInt32BE_eq, hg, Option.map_some',
      offset_no_wrap SIZE_MAX _ o 4 hsize h]⟩
  · have hs := storeBE_window buffer o 4 v h
    rw [← storeUInt32BE_eq bo] at hs
    exact ⟨_, hs, by rw [encodeUInt32BE_eq, hs, Option.map_some',
      offset_no_wrap SIZE_MAX _ o 4 hsize h]⟩
  · have hg := getBE_window buffer o 8 h
    rw [← getUInt64BE_eq bo] at hg
    exact ⟨_, hg, by rw [decodeUInt64BE_eq, hg, Option.map_some',
      offset_no_wrap SIZE_MAX _ o 8 hsize h]⟩
  · have hs := storeBE_window buffer o 8 v h
    rw [← storeUInt64BE_eq bo] at hs
    exact ⟨_, hs, by rw [encodeUInt64BE_eq, hs, Option.map_some',
      offset_no_wrap SIZE_MAX _ o 8 hsize h]⟩

theorem C6_witness :
    ((∃ d, getUInt16BE ByteOrder.LITTLE_ENDIAN [1, 2, 3, 4, 5, 6, 7, 8, 9, 10] 1 = some d ∧
        decodeUInt16BE ByteOrder.LITTLE_ENDIAN 18446744073709551615
          [1, 2, 3, 4, 5, 6, 7, 8, 9, 10] 1 = some (1 + 2, d)) ∧
      (∃ m, storeUInt16BE ByteOrder.LITTLE_ENDIAN [1, 2, 3, 4, 5, 6, 7, 8, 9, 10] 1 0xABCD
          = some m ∧
        encodeUInt16BE ByteOrder.LITTLE_ENDIAN 18446744073709551615
          [1, 2, 3, 4, 5, 6, 7, 8, 9, 10] 1 0xABCD = some (m, 1 + 2))) ∧
    ((∃ d, getUInt32BE ByteOrder.LITTLE_ENDIAN [1, 2, 3, 4, 5, 6, 7, 8, 9, 10] 1 = some d ∧
        decodeUInt32BE ByteOrder.LITTLE_ENDIAN 18446744073709551615
          [1, 2, 3, 4, 5, 6, 7, 8, 9, 10] 1 = some (1 + 4, d)) ∧
      (∃ m, storeUInt32BE ByteOrder.LITTLE_ENDIAN [1, 2, 3, 4, 5, 6, 7, 8, 9, 10] 1 0xABCD
          = some m ∧
        encodeUInt32BE ByteOrder.LITTLE_ENDIAN 18446744073709551615
          [1, 2, 3, 4, 5, 6, 7, 8, 9, 10] 1 0xABCD = some (m, 1 + 4))) ∧
    ((∃ d, getUInt64BE ByteOrder.LITTLE_ENDIAN [1, 2, 3, 4, 5, 6, 7, 8, 9, 10] 1 = some d ∧
        decodeUInt64BE ByteOrder.LITTLE_ENDIAN 18446744073709551615
          [1, 2, 3, 4, 5, 6, 7, 8, 9, 10] 1 = some (1 + 8, d)) ∧
      (∃ m, storeUInt64BE ByteOrder.LITTLE_ENDIAN [1, 2, 3, 4, 5, 6, 7, 8, 9, 10] 1 0xABCD
          = some m ∧
        encodeUInt64BE ByteOrder.LITTLE_ENDIAN 18446744073709551615
          [1, 2, 3, 4, 5, 6, 7, 8, 9, 10] 1 0xABCD = some (m, 1 + 8))) :=
  have h := C6_cursor_advances_by_width ByteOrder.LITTLE_ENDIAN 18446744073709551615
    [1, 2, 3, 4, 5, 6, 7, 8, 9, 10] 1 0xABCD (by decide)
  ⟨h.1 (by decide), h.2.1 (by decide), h.2.2 (by decide)⟩

/-! ## Frame of the stores -/

theorem storeBE_frame (mem : List byte) (o n v : Nat) (h : o + n ≤ mem.length) :
    ∃ m, storeAt mem (unalignedIndices o n) (beBytes n v) = some m ∧
      unchangedOutside o n mem m :=
  ⟨_, storeBE_window mem o n v h, splice_unchangedOutside mem o n _ (beBytes_length n v) h⟩

theorem storeLE_frame (mem : List byte) (o n v : Nat) (h : o + n ≤ mem.length) :
    ∃ m, storeAt mem (unalignedIndices o n) (leBytes n v) = some m ∧
      unchangedOutside o n mem m :=
  ⟨_, storeLE_window mem o n v h, splice_unchangedOutside mem o n _ (leBytes_length n v) h⟩

/-- C7. Store and encode touch only their own window: for each width W in
16, 32, 64, both endiannesses, every value `v`, every buffer and every offset
`o` with `o + W/8 ≤ buffer.length`, `storeUIntW_BE`, `storeUIntW_LE` and
`encodeUIntW_BE` at `o` succeed, and the buffer they leave has the same length
and the same byte at every index outside `[o, o + W/8)`. -/
theorem C7_store_touches_only_window (bo : ByteOrder) (SIZE_MAX : Nat) (buffer : List byte)
    (o v : Nat) :
    (o + 2 ≤ buffer.length →
      (∃ m, storeUInt16BE bo buffer o v = some m ∧ unchangedOutside o 2 buffer m) ∧
      (∃ m, storeUInt16LE bo buffer o v = some m ∧ unchangedOutside o 2 buffer m) ∧
      (∃ m off, encodeUInt16BE bo SIZE_MAX buffer o v = some (m, off) ∧
        unchangedOutside o 2 buffer m)) ∧
    (o + 4 ≤ buffer.length →
      (∃ m, storeUInt32BE bo buffer o v = some m ∧ unchangedOutside o 4 buffer m) ∧
      (∃ m, storeUInt32LE bo buffer o v = some m ∧ unchangedOutside o 4 buffer m) ∧
      (∃ m off, encodeUInt32BE bo SIZE_MAX buffer o v = some (m, off) ∧
        unchangedOutside o 4 buffer m)) ∧
    (o + 8 ≤ buffer.length →
      (∃ m, storeUInt64BE bo buffer o v = some m ∧ unchangedOutside o 8 buffer m) ∧
      (∃ m, storeUInt64LE bo buffer o v = some m ∧ unchangedOutside o 8 buffer m) ∧
      (∃ m off, encodeUInt64BE bo SIZE_MAX buffer o v = some (m, off) ∧
        unchangedOutside o 8 buffer m)) := by
  refine ⟨fun h => ?_, fun h => ?_, fun h => ?_⟩
  · obtain ⟨m, hm, hf⟩ := storeBE_frame buffer o 2 v h
    rw [← storeUInt16BE_eq bo] at hm
    refine ⟨⟨m, hm, hf⟩, ?_, ⟨m, _, by rw [encodeUInt16BE_eq, hm]; rfl, hf⟩⟩
    rw [storeUInt16LE_eq]
    exact storeLE_frame buffer o 2 v h
  · obtain ⟨m, hm, hf⟩ := storeBE_frame buffer o 4 v h
    rw [← storeUInt32BE_eq bo] at hm
    refine ⟨⟨m, hm, hf⟩, ?_, ⟨m, _, by rw [encodeUInt32BE_eq, hm]; rfl, hf⟩⟩
    rw [storeUInt32LE_eq]
    exact storeLE_frame buffer o 4 v h
  · obtain ⟨m, hm, hf⟩ := storeBE_frame buffer o 8 v h
    rw [← storeUInt64BE_eq bo] at hm
    refine ⟨⟨m, hm, hf⟩, ?_, ⟨m, _, by rw [encodeUInt64BE_eq, hm]; rfl, hf⟩⟩
    rw [storeUInt64LE_eq]
    exact storeLE_frame buffer o 8 v h

theorem C7_witness :
    ((∃ m, storeUInt16BE ByteOrder.BIG_ENDIAN [1, 2, 3, 4, 5, 6, 7, 8, 9, 10] 1 0xABCD = some m ∧
        unchangedOutside 1 2 [1, 2, 3, 4, 5, 6, 7, 8, 9, 10] m) ∧
      (∃ m, storeUInt16LE ByteOrder.BIG_ENDIAN [1, 2, 3, 4, 5, 6, 7, 8, 9, 10] 1 0xABCD = some m ∧
        unchangedOutside 1 2 [1, 2, 3, 4, 5, 6, 7, 8, 9, 10] m) ∧
      (∃ m off, encodeUInt16BE ByteOrder.BIG_ENDIAN 65535 [1, 2, 3, 4, 5, 6, 7, 8, 9, 10] 1 0xABCD
          = some (m, off) ∧
        unchangedOutside 1 2 [1, 2, 3, 4, 5, 6, 7, 8, 9, 10] m)) ∧
    ((∃ m, storeUInt32BE ByteOrder.BIG_ENDIAN [1, 2, 3, 4, 5, 6, 7, 8, 9, 10] 1 0xABCD = some m ∧
        unchangedOutside 1 4 [1, 2, 3, 4, 5, 6, 7, 8, 9, 10] m) ∧
      (∃ m, storeUInt32LE ByteOrder.BIG_ENDIAN [1, 2, 3, 4, 5, 6, 7, 8, 9, 10] 1 0xABCD = some m ∧
        unchangedOutside 1 4 [1, 2, 3, 4, 5, 6, 7, 8, 9, 10] m) ∧
      (∃ m off, encodeUInt32BE ByteOrder.BIG_ENDIAN 65535 [1, 2, 3, 4, 5, 6, 7, 8, 9, 10] 1 0xABCD
          = some (m, off) ∧
        unchangedOutside 1 4 [1, 2, 3, 4, 5, 6, 7, 8, 9, 10] m)) ∧
    ((∃ m, storeUInt64BE ByteOrder.BIG_ENDIAN [1, 2, 3, 4, 5, 6, 7, 8, 9, 10] 1 0xABCD = some m ∧
        unchangedOutside 1 8 [1, 2, 3, 4, 5, 6, 7, 8, 9, 10] m) ∧
      (∃ m, storeUInt64LE ByteOrder.BIG_ENDIAN [1, 2, 3, 4, 5, 6, 7, 8, 9, 10] 1 0xABCD = some m ∧
        unchangedOutside 1 8 [1, 2, 3, 4, 5, 6, 7, 8, 9, 10] m) ∧
      (∃ m off, encodeUInt64BE ByteOrder.BIG_ENDIAN 65535 [1, 2, 3, 4, 5, 6, 7, 8, 9, 10] 1 0xABCD
          = some (m, off) ∧
        unchangedOutside 1 8 [1, 2, 3, 4, 5, 6, 7, 8, 9, 10] m)) :=
  have h := C7_store_touches_only_window ByteOrder.BIG_ENDIAN 65535
    [1, 2, 3, 4, 5, 6, 7, 8, 9, 10] 1 0xABCD
  ⟨h.1 (by decide), h.2.1 (by decide), h.2.2 (by decide)⟩

/-- C8. Platform independence of the codecs: for each width W in 16, 32, 64
and each endianness, `getUIntW_E` built with `BYTE_ORDER == LITTLE_ENDIAN` and
built with `BYTE_ORDER == BIG_ENDIAN` return the same result on every buffer
and pointer, and `storeUIntW_E` built either way leaves the same buffer for
every value. -/
theorem C8_platform_independence (buffer : List byte) (o v : Nat) :
    getUInt16BE ByteOrder.LITTLE_ENDIAN buffer o = getUInt16BE ByteOrder.BIG_ENDIAN buffer o ∧
    getUInt32BE ByteOrder.LITTLE_ENDIAN buffer o = getUInt32BE ByteOrder.BIG_ENDIAN buffer o ∧
    getUInt64BE ByteOrder.LITTLE_ENDIAN buffer o = getUInt64BE ByteOrder.BIG_ENDIAN buffer o ∧
    getUInt16LE ByteOrder.LITTLE_ENDIAN buffer o = getUInt16LE ByteOrder.BIG_ENDIAN buffer o ∧
    getUInt32LE ByteOrder.LITTLE_ENDIAN buffer o = getUInt32LE ByteOrder.BIG_ENDIAN buffer o ∧
    getUInt64LE ByteOrder.LITTLE_ENDIAN buffer o = getUInt64LE ByteOrder.BIG_ENDIAN buffer o ∧
    storeUInt16BE ByteOrder.LITTLE_ENDIAN buffer o v
      = storeUInt16BE ByteOrder.BIG_ENDIAN buffer o v ∧
    storeUInt32BE ByteOrder.LITTLE_ENDIAN buffer o v
      = storeUInt32BE ByteOrder.BIG_ENDIAN buffer o v ∧
    storeUInt64BE ByteOrder.LITTLE_ENDIAN buffer o v
      = storeUInt64BE ByteOrder.BIG_ENDIAN buffer o v ∧
    storeUInt16LE ByteOrder.LITTLE_ENDIAN buffer o v
      = storeUInt16LE ByteOrder.BIG_ENDIAN buffer o v ∧
    storeUInt32LE ByteOrder.LITTLE_ENDIAN buffer o v
      = storeUInt32LE ByteOrder.BIG_ENDIAN buffer o v ∧
    storeUInt64LE ByteOrder.LITTLE_ENDIAN buffer o v
      = storeUInt64LE ByteOrder.BIG_ENDIAN buffer o v := by
  simp only [getUInt16BE_eq, getUInt32BE_eq, getUInt64BE_eq, getUInt16LE_eq, getUInt32LE_eq,
    getUInt64LE_eq, storeUInt16BE_eq, storeUInt32BE_eq, storeUInt64BE_eq, storeUInt16LE_eq,
    storeUInt32LE_eq, storeUInt64LE_eq, and_self]

/-! ## Accessed indices and the out-of-bounds branch -/

theorem loadAt_eq_none_iff (mem : List byte) (is : List Nat) :
    loadAt mem is = none ↔ ∃ i ∈ is, mem.length ≤ i := by
  induction is with
  | nil => simp [loadAt]
  | cons i is ih =>
    rw [loadAt]
    by_cases hi : i < mem.length
    · rw [List.getElem?_eq_getElem hi]
      simp only [Option.map_eq_none', ih, List.mem_cons, exists_eq_or_imp]
      constructor
      · intro h; exact Or.inr h
      · rintro (h | h)
        · omega
        · exact h
    · rw [List.getElem?_eq_none (by omega)]
      simp only [List.mem_cons, exists_eq_or_imp, true_iff]
      exact Or.inl (by omega)

theorem storeAt_eq_none_iff (mem : List byte) (is : List Nat) (bs : List byte)
    (hl : is.length = bs.length) :
    storeAt mem is bs = none ↔ ∃ i ∈ is, mem.length ≤ i := by
  induction is generalizing mem bs with
  | nil => simp [storeAt]
  | cons i is ih =>
    cases bs with
    | nil => simp at hl
    | cons b bs =>
      rw [storeAt]
      by_cases hi : i < mem.length
      · rw [if_pos hi, ih (mem.set i b) bs (by simpa using hl)]
        simp only [List.length_set, List.mem_cons, exists_eq_or_imp]
        constructor
        · intro h; exact Or.inr h
        · rintro (h | h)
          · omega
          · exact h
      · rw [if_neg hi]
        simp only [List.mem_cons, exists_eq_or_imp, true_iff]
        exact Or.inl (by omega)

theorem unalignedIndices_bounds (mem : List byte) (o n : Nat) (h : o + n ≤ mem.length) :
    ∀ i ∈ unalignedIndices o n, o ≤ i ∧ i < o + n ∧ i < mem.length := by
  intro i hi
  simp only [unalignedIndices, List.mem_range'_1] at hi
  omega

/-- C9. In-bounds access under the buffer-sufficiency precondition.
`GET_UNALIGNED` and `PUT_UNALIGNED` take the out-of-bounds branch exactly when
one of the indices they access, `unalignedIndices o size`, is outside the
buffer. For each width W in 16, 32, 64, every buffer and every offset `o` with
`o + W/8 ≤ buffer.length`, every index accessed by `getUIntW_E`,
`decodeUIntW_BE`, `storeUIntW_E` and `encodeUIntW_BE` at `o` lies in
`[o, o + W/8)` and inside the buffer, and none of these functions takes the
out-of-bounds branch. -/
theorem C9_accesses_in_bounds (bo : ByteOrder) (SIZE_MAX : Nat) (buffer : List byte)
    (o v : Nat) :
    (∀ size,
      (GET_UNALIGNED bo size buffer o = none
        ↔ ∃ i ∈ unalignedIndices o size, buffer.length ≤ i) ∧
      (PUT_UNALIGNED bo size buffer o v = none
        ↔ ∃ i ∈ unalignedIndices o size, buffer.length ≤ i)) ∧
    (o + 2 ≤ buffer.length →
      (∀ i ∈ unalignedIndices o 2, o ≤ i ∧ i < o + 2 ∧ i < buffer.length) ∧
      (getUInt16BE bo buffer o).isSome ∧ (getUInt16LE bo buffer o).isSome ∧
      (decodeUInt16BE bo SIZE_MAX buffer o).isSome ∧
      (storeUInt16BE bo buffer o v).isSome ∧ (storeUInt16LE bo buffer o v).isSome ∧
      (encodeUInt16BE bo SIZE_MAX buffer o v).isSome) ∧
    (o + 4 ≤ buffer.length →
      (∀ i ∈ unalignedIndices o 4, o ≤ i ∧ i < o + 4 ∧ i < buffer.length) ∧
      (getUInt32BE bo buffer o).isSome ∧ (getUInt32LE bo buffer o).isSome ∧
      (decodeUInt32BE bo SIZE_MAX buffer o).isSome ∧
      (storeUInt32BE bo buffer o v).isSome ∧ (storeUInt32LE bo buffer o v).isSome ∧
      (encodeUInt32BE bo SIZE_MAX buffer o v).isSome) ∧
    (o + 8 ≤ buffer.length →
      (∀ i ∈ unalignedIndices o 8, o ≤ i ∧ i < o + 8 ∧ i < buffer.length) ∧
      (getUInt64BE bo buffer o).isSome ∧ (getUInt64LE bo buffer o).isSome ∧
      (decodeUInt64BE bo SIZE_MAX buffer o).isSome ∧
      (storeUInt64BE bo buffer o v).isSome ∧ (storeUInt64LE bo buffer o v).isSome ∧
      (encodeUInt64BE bo SIZE_MAX buffer o v).isSome) := by
  refine ⟨fun size => ⟨?_, ?_⟩, fun h => ?_, fun h => ?_, fun h => ?_⟩
  · rw [GET_UNALIGNED, Option.map_eq_none', loadAt_eq_none_iff]
  · rw [PUT_UNALIGNED, storeAt_eq_none_iff _ _ _ (by
      rw [nativeBytes_length]; simp [unalignedIndices])]
  · refine ⟨unalignedIndices_bounds buffer o 2 h, ?_, ?_, ?_, ?_, ?_, ?_⟩
    · rw [getUInt16BE_eq, getBE_window buffer o 2 h]; rfl
    · rw [getUInt16LE_eq, getLE_window buffer o 2 h]; rfl
    · rw [decodeUInt16BE_eq, getUInt16BE_eq, getBE_window buffer o 2 h]; rfl
    · rw [storeUInt16BE_eq, storeBE_window buffer o 2 v h]; rfl
    · rw [storeUInt16LE_eq, storeLE_window buffer o 2 v h]; rfl
    · rw [encodeUInt16BE_eq, storeUInt16BE_eq, storeBE_window buffer o 2 v h]; rfl
  · refine ⟨unalignedIndices_bounds buffer o 4 h, ?_, ?_, ?_, ?_, ?_, ?_⟩
    · rw [getUInt32BE_eq, getBE_window buffer o 4 h]; rfl
    · rw [getUInt32LE_eq, getLE_window buffer o 4 h]; rfl
    · rw [decodeUInt32BE_eq, getUInt32BE_eq, getBE_window buffer o 4 h]; rfl
    · rw [storeUInt32BE_eq, storeBE_window buffer o 4 v h]; rfl
    · rw [storeUInt32LE_eq, storeLE_window buffer o 4 v h]; rfl
    · rw [encodeUInt32BE_eq, storeUInt32BE_eq, storeBE_window buffer o 4 v h]; rfl
  · refine ⟨unalignedIndices_bounds buffer o 8 h, ?_, ?_, ?_, ?_, ?_, ?_⟩
    · rw [getUInt64BE_eq, getBE_window buffer o 8 h]; rfl
    · rw [getUInt64LE_eq, getLE_window buffer o 8 h]; rfl
    · rw [decodeUInt64BE_eq, getUInt64BE_eq, getBE_window buffer o 8 h]; rfl
    · rw [storeUInt64BE_eq, storeBE_window buffer o 8 v h]; rfl
    · rw [storeUInt64LE_eq, storeLE_window buffer o 8 v h]; rfl
    · rw [encodeUInt64BE_eq, storeUInt64BE_eq, storeBE_window buffer o 8 v h]; rfl

theorem C9_witness :
    ((∀ i ∈ unalignedIndices 2 2, 2 ≤ i ∧ i < 2 + 2 ∧ i < [1, 2, 3, 4, 5, 6, 7, 8, 9, 10].length) ∧
      (getUInt16BE ByteOrder.LITTLE_ENDIAN [1, 2, 3, 4, 5, 6, 7, 8, 9, 10] 2).isSome ∧
      (getUInt16LE ByteOrder.LITTLE_ENDIAN [1, 2, 3, 4, 5, 6, 7, 8, 9, 10] 2).isSome ∧
      (decodeUInt16BE ByteOrder.LITTLE_ENDIAN 4294967295 [1, 2, 3, 4, 5, 6, 7, 8, 9, 10] 2).isSome ∧
      (storeUInt16BE ByteOrder.LITTLE_ENDIAN [1, 2, 3, 4, 5, 6, 7, 8, 9, 10] 2 77).isSome ∧
      (storeUInt16LE ByteOrder.LITTLE_ENDIAN [1, 2, 3, 4, 5, 6, 7, 8, 9, 10] 2 77).isSome ∧
      (encodeUInt16BE ByteOrder.LITTLE_ENDIAN 4294967295
        [1, 2, 3, 4, 5, 6, 7, 8, 9, 10] 2 77).isSome) ∧
    ((∀ i ∈ unalignedIndices 2 4, 2 ≤ i ∧ i < 2 + 4 ∧ i < [1, 2, 3, 4, 5, 6, 7, 8, 9, 10].length) ∧
      (getUInt32BE ByteOrder.LITTLE_ENDIAN [1, 2, 3, 4, 5, 6, 7, 8, 9, 10] 2).isSome ∧
      (getUInt32LE ByteOrder.LITTLE_ENDIAN [1, 2, 3, 4, 5, 6, 7, 8, 9, 10] 2).isSome ∧
      (decodeUInt32BE ByteOrder.LITTLE_ENDIAN 4294967295 [1, 2, 3, 4, 5, 6, 7, 8, 9, 10] 2).isSome ∧
      (storeUInt32BE ByteOrder.LITTLE_ENDIAN [1, 2, 3, 4, 5, 6, 7, 8, 9, 10] 2 77).isSome ∧
      (storeUInt32LE ByteOrder.LITTLE_ENDIAN [1, 2, 3, 4, 5, 6, 7, 8, 9, 10] 2 77).isSome ∧
      (encodeUInt32BE ByteOrder.LITTLE_ENDIAN 4294967295
        [1, 2, 3, 4, 5, 6, 7, 8, 9, 10] 2 77).isSome) ∧
    ((∀ i ∈ unalignedIndices 2 8, 2 ≤ i ∧ i < 2 + 8 ∧ i < [1, 2, 3, 4, 5, 6, 7, 8, 9, 10].length) ∧
      (getUInt64BE ByteOrder.LITTLE_ENDIAN [1, 2, 3, 4, 5, 6, 7, 8, 9, 10] 2).isSome ∧
      (getUInt64LE ByteOrder.LITTLE_ENDIAN [1, 2, 3, 4, 5, 6, 7, 8, 9, 10] 2).isSome ∧
      (decodeUInt64BE ByteOrder.LITTLE_ENDIAN 4294967295 [1, 2, 3, 4, 5, 6, 7, 8, 9, 10] 2).isSome ∧
      (storeUInt64BE ByteOrder.LITTLE_ENDIAN [1, 2, 3, 4, 5, 6, 7, 8, 9, 10] 2 77).isSome ∧
      (storeUInt64LE ByteOrder.LITTLE_ENDIAN [1, 2, 3, 4, 5, 6, 7, 8, 9, 10] 2 77).isSome ∧
      (encodeUInt64BE ByteOrder.LITTLE_ENDIAN 4294967295
        [1, 2, 3, 4, 5, 6, 7, 8, 9, 10] 2 77).isSome) :=
  have h := C9_accesses_in_bounds ByteOrder.LITTLE_ENDIAN 4294967295
    [1, 2, 3, 4, 5, 6, 7, 8, 9, 10] 2 77
  ⟨h.2.1 (by decide), h.2.2.1 (by decide), h.2.2.2 (by decide)⟩

/-! ## Overflow-checked multiplication -/

/-- C10. For all `a` and `b`, in particular all 64-bit unsigned ones,
`multiplyWouldOverflow(a, b)` is true if and only if the mathematical product
`a * b` exceeds `2^64 - 1`; in particular `multiplyWouldOverflow(2^32, 2^32)`
is true and `multiplyWouldOverflow(0, b)` is false for every `b`. -/
theorem C10_multiplyWouldOverflow_iff (a b : Nat) :
    (multiplyWouldOverflow a b = true ↔ a * b > 2 ^ 64 - 1) ∧
    multiplyWouldOverflow (2 ^ 32) (2 ^ 32) = true ∧
    multiplyWouldOverflow 0 b = false := by
  refine ⟨?_, by decide, by simp [multiplyWouldOverflow]⟩
  have hM : (2 : Nat) ^ 64 - 1 = UINT64_MAX := by norm_num [UINT64_MAX]
  rw [hM]
  rcases Nat.eq_zero_or_pos a with h0 | hpos
  · subst h0
    simp [multiplyWouldOverflow]
  · have hne : a ≠ 0 := Nat.pos_iff_ne_zero.mp hpos
    simp only [multiplyWouldOverflow, bne_iff_ne, ne_eq, hne, not_false_eq_true, gt_iff_lt,
      Bool.and_eq_true, decide_eq_true_eq, true_and]
    rw [Nat.div_lt_iff_lt_mul hpos, Nat.mul_comm]

/-! ## Number theory -/

theorem greatestCommonDivisor_eq_gcd (a b : Nat) : greatestCommonDivisor a b = Nat.gcd a b := by
  induction b using Nat.strong_induction_on generalizing a with
  | _ b ih =>
    rw [greatestCommonDivisor]
    by_cases hb : b = 0
    · simp [hb]
    · rw [if_neg hb, ih (a % b) (Nat.mod_lt a (Nat.pos_of_ne_zero hb)) b,
        Nat.gcd_comm a b, Nat.gcd_rec b a, Nat.gcd_comm]

theorem greatestCommonDivisor_pos (a b : Nat) (h : 0 < a ∨ 0 < b) :
    0 < greatestCommonDivisor a b := by
  rw [greatestCommonDivisor_eq_gcd]
  rcases h with h | h
  · exact Nat.gcd_pos_of_pos_left b h
  · exact Nat.gcd_pos_of_pos_right a h

theorem leastCommonMultiple_of_pos (a b : Nat) (ha : 0 < a) (hb : 0 < b) :
    leastCommonMultiple a b = some (a / Nat.gcd a b * b % 2 ^ 64) := by
  have hg : greatestCommonDivisor a b ≠ 0 :=
    Nat.pos_iff_ne_zero.mp (greatestCommonDivisor_pos a b (Or.inl ha))
  have hab : ¬(a = 0 ∨ b = 0) := by omega
  rw [greatestCommonDivisor_eq_gcd] at hg
  simp only [leastCommonMultiple, hab, if_false, hg, greatestCommonDivisor_eq_gcd]

theorem div_gcd_mul_eq_lcm (a b : Nat) : a / Nat.gcd a b * b = Nat.lcm a b := by
  rw [Nat.lcm, Nat.mul_comm a b, Nat.mul_comm (a / Nat.gcd a b) b,
    Nat.mul_div_assoc b (Nat.gcd_dvd_left a b)]

/-- C11. For all `a` and `b`, in particular all 64-bit unsigned ones,
`greatestCommonDivisor(a, b)` is the mathematical gcd of `a` and `b`: it
divides both, every common divisor is at most it when `a, b > 0`, it is
symmetric, and `gcd(a, 0) = a`, `gcd(0, b) = b`, `gcd(0, 0) = 0`. -/
theorem C11_greatestCommonDivisor_is_gcd (a b : Nat) :
    greatestCommonDivisor a b = Nat.gcd a b ∧
    greatestCommonDivisor a b ∣ a ∧ greatestCommonDivisor a b ∣ b ∧
    (0 < a → 0 < b → ∀ d, d ∣ a → d ∣ b → d ≤ greatestCommonDivisor a b) ∧
    greatestCommonDivisor a b = greatestCommonDivisor b a ∧
    greatestCommonDivisor a 0 = a ∧ greatestCommonDivisor 0 b = b ∧
    greatestCommonDivisor 0 0 = 0 := by
  simp only [greatestCommonDivisor_eq_gcd, Nat.gcd_zero_right, Nat.gcd_zero_left, true_and,
    and_true]
  refine ⟨Nat.gcd_dvd_left a b, Nat.gcd_dvd_right a b, fun ha _ d hda hdb => ?_,
    Nat.gcd_comm a b⟩
  exact Nat.le_of_dvd (Nat.gcd_pos_of_pos_left b ha) (Nat.dvd_gcd hda hdb)

theorem C11_witness :
    ∀ d, d ∣ 12 → d ∣ 18 → d ≤ greatestCommonDivisor 12 18 :=
  (C11_greatestCommonDivisor_is_gcd 12 18).2.2.2.1 (by decide) (by decide)

/-- C12. For all `a, b > 0` whose least common multiple fits in 64 bits,
`leastCommonMultiple(a, b)` returns that least common multiple, it is
divisible by both `a` and `b`, and
`leastCommonMultiple(a, b) * greatestCommonDivisor(a, b) = a * b`, in
particular whenever `a * b` does not overflow 64 bits. -/
theorem C12_leastCommonMultiple_correct (a b : Nat) (ha : 0 < a) (hb : 0 < b)
    (hfit : Nat.lcm a b < 2 ^ 64) :
    ∃ l, leastCommonMultiple a b = some l ∧ l = Nat.lcm a b ∧ l % a = 0 ∧ l % b = 0 ∧
      l * greatestCommonDivisor a b = a * b ∧
      (a * b < 2 ^ 64 →
        l * greatestCommonDivisor a b % 2 ^ 64 = a * b % 2 ^ 64) := by
  have hl : leastCommonMultiple a b = some (Nat.lcm a b) := by
    rw [leastCommonMultiple_of_pos a b ha hb, div_gcd_mul_eq_lcm, Nat.mod_eq_of_lt hfit]
  have hmul : Nat.lcm a b * greatestCommonDivisor a b = a * b := by
    rw [greatestCommonDivisor_eq_gcd, Nat.mul_comm, Nat.gcd_mul_lcm]
  exact ⟨_, hl, rfl, Nat.mod_eq_zero_of_dvd (Nat.dvd_lcm_left a b),
    Nat.mod_eq_zero_of_dvd (Nat.dvd_lcm_right a b), hmul, fun _ => by rw [hmul]⟩

theorem C12_witness :
    ∃ l, leastCommonMultiple 12 18 = some l ∧ l = Nat.lcm 12 18 ∧ l % 12 = 0 ∧ l % 18 = 0 ∧
      l * greatestCommonDivisor 12 18 = 12 * 18 ∧
      (12 * 18 < 2 ^ 64 →
        l * greatestCommonDivisor 12 18 % 2 ^ 64 = 12 * 18 % 2 ^ 64) :=
  C12_leastCommonMultiple_correct 12 18 (by decide) (by decide) (by decide)

/-- C13. `leastCommonMultiple` is defined and returns 0 whenever either input
is 0: `leastCommonMultiple(0, b) = 0` and `leastCommonMultiple(b, 0) = 0` for
every `b`, also `leastCommonMultiple(0, 0) = 0` although `gcd(0, 0) = 0`, and
for no inputs does the computation divide by zero. -/
theorem C13_leastCommonMultiple_zero (a b : Nat) :
    leastCommonMultiple 0 b = some 0 ∧ leastCommonMultiple b 0 = some 0 ∧
    leastCommonMultiple 0 0 = some 0 ∧ greatestCommonDivisor 0 0 = 0 ∧
    leastCommonMultiple a b ≠ none := by
  refine ⟨by simp [leastCommonMultiple], by simp [leastCommonMultiple],
    by simp [leastCommonMultiple], by simp [greatestCommonDivisor_eq_gcd], ?_⟩
  by_cases hab : a = 0 ∨ b = 0
  · simp [leastCommonMultiple, hab]
  · rw [leastCommonMultiple_of_pos a b (by omega) (by omega)]
    exact Option.some_ne_none _

/-! ## Scalar min/max -/

/-- C14. For every pair `a`, `b` of the argument type (integers, negative ones
included, for `minInt`; naturals for `minSizeT` and `minUInt64`), the min
helper returns `r` with `r ≤ a`, `r ≤ b`, and `r = a` or `r = b`. -/
theorem C14_min_helpers (a b : Int) (c d : Nat) :
    (minInt a b ≤ a ∧ minInt a b ≤ b ∧ (minInt a b = a ∨ minInt a b = b)) ∧
    (minSizeT c d ≤ c ∧ minSizeT c d ≤ d ∧ (minSizeT c d = c ∨ minSizeT c d = d)) ∧
    (minUInt64 c d ≤ c ∧ minUInt64 c d ≤ d ∧ (minUInt64 c d = c ∨ minUInt64 c d = d)) := by
  unfold minInt minSizeT minUInt64
  refine ⟨?_, ?_, ?_⟩ <;> split <;> omega

/-- C15. For every pair `a`, `b` of the argument type (integers, negative ones
included, for `maxInt`; naturals for `maxSizeT`), the max helper returns `r`
with `r ≥ a`, `r ≥ b`, and `r = a` or `r = b`. -/
theorem C15_max_helpers (a b : Int) (c d : Nat) :
    (maxInt a b ≥ a ∧ maxInt a b ≥ b ∧ (maxInt a b = a ∨ maxInt a b = b)) ∧
    (maxSizeT c d ≥ c ∧ maxSizeT c d ≥ d ∧ (maxSizeT c d = c ∨ maxSizeT c d = d)) := by
  unfold maxInt maxSizeT
  refine ⟨?_, ?_⟩ <;> split <;> omega

/-! ## Store after get -/

theorem window_splice_self (mem : List byte) (o n : Nat) :
    mem.take o ++ (mem.drop o).take n ++ mem.drop (o + n) = mem := by
  rw [List.append_assoc, ← List.drop_drop, List.take_append_drop, List.take_append_drop]

theorem beBytes_beValue (bs : List byte) : beBytes bs.length (beValue bs) = bs := by
  have h := leBytes_leValue bs.reverse
  rw [List.length_reverse] at h
  rw [beBytes, beValue_eq_leValue_reverse, h, List.reverse_reverse]

theorem store_get_BE (mem : List byte) (o n : Nat) (h : o + n ≤ mem.length) :
    ((loadAt mem (unalignedIndices o n)).map beValue).bind
        (fun v => storeAt mem (unalignedIndices o n) (beBytes n v)) = some mem := by
  have hb := beBytes_beValue ((mem.drop o).take n)
  rw [window_length mem o n h] at hb
  rw [loadAt_window mem o n h, Option.map_some', Option.some_bind,
    storeBE_window mem o n _ h, hb, window_splice_self]

theorem store_get_LE (mem : List byte) (o n : Nat) (h : o + n ≤ mem.length) :
    ((loadAt mem (unalignedIndices o n)).map leValue).bind
        (fun v => storeAt mem (unalignedIndices o n) (leBytes n v)) = some mem := by
  have hb := leBytes_leValue ((mem.drop o).take n)
  rw [window_length mem o n h] at hb
  rw [loadAt_window mem o n h, Option.map_some', Option.some_bind,
    storeLE_window mem o n _ h, hb, window_splice_self]

theorem leValue_injective (n : Nat) (w1 w2 : List byte) (h1 : w1.length = n)
    (h2 : w2.length = n) (h : leValue w1 = leValue w2) : w1 = w2 := by
  rw [← leBytes_leValue w1, ← leBytes_leValue w2, h, h1, h2]

theorem beValue_injective (n : Nat) (w1 w2 : List byte) (h1 : w1.length = n)
    (h2 : w2.length = n) (h : beValue w1 = beValue w2) : w1 = w2 := by
  rw [← beBytes_beValue w1, ← beBytes_beValue w2, h, h1, h2]

theorem loadAt_whole (w : List byte) (n : Nat) (h : w.length = n) :
    loadAt w (unalignedIndices 0 n) = some w := by
  rw [loadAt_window w 0 n (by omega), List.drop_zero, ← h, List.take_length]

theorem getBE_window_injective (n : Nat) (w1 w2 : List byte) (h1 : w1.length = n)
    (h2 : w2.length = n)
    (h : (loadAt w1 (unalignedIndices 0 n)).map beValue
      = (loadAt w2 (unalignedIndices 0 n)).map beValue) : w1 = w2 := by
  rw [loadAt_whole w1 n h1, loadAt_whole w2 n h2] at h
  exact beValue_injective n w1 w2 h1 h2 (Option.some.inj h)

theorem getLE_window_injective (n : Nat) (w1 w2 : List byte) (h1 : w1.length = n)
    (h2 : w2.length = n)
    (h : (loadAt w1 (unalignedIndices 0 n)).map leValue
      = (loadAt w2 (unalignedIndices 0 n)).map leValue) : w1 = w2 := by
  rw [loadAt_whole w1 n h1, loadAt_whole w2 n h2] at h
  exact leValue_injective n w1 w2 h1 h2 (Option.some.inj h)

theorem beValue_lt (bs : List byte) : beValue bs < 256 ^ bs.length := by
  rw [beValue_eq_leValue_reverse, ← List.length_reverse bs]
  exact leValue_lt bs.reverse

theorem getBE_window_surjective (n v : Nat) (hv : v < 256 ^ n) :
    ∃ w : List byte, w.length = n ∧
      (loadAt w (unalignedIndices 0 n)).map beValue = some v := by
  refine ⟨beBytes n v, beBytes_length n v, ?_⟩
  rw [loadAt_whole _ n (beBytes_length n v), Option.map_some', beValue_beBytes,
    Nat.mod_eq_of_lt hv]

theorem getLE_window_surjective (n v : Nat) (hv : v < 256 ^ n) :
    ∃ w : List byte, w.length = n ∧
      (loadAt w (unalignedIndices 0 n)).map leValue = some v := by
  refine ⟨leBytes n v, leBytes_length n v, ?_⟩
  rw [loadAt_whole _ n (leBytes_length n v), Option.map_some', leValue_leBytes,
    Nat.mod_eq_of_lt hv]

theorem windowBijection_BE (n W : Nat) (hW : 2 ^ W = 256 ^ n) :
    windowBijection n W (fun w d => (loadAt w (unalignedIndices d n)).map beValue) := by
  refine ⟨fun w1 w2 h1 h2 h => getBE_window_injective n w1 w2 h1 h2 h, fun v hv => ?_,
    fun w hw => ?_⟩
  · exact getBE_window_surjective n v (hW ▸ hv)
  · refine ⟨beValue w, ?_, ?_⟩
    · rw [hW, ← hw]
      exact beValue_lt w
    · show (loadAt w (unalignedIndices 0 n)).map beValue = _
      rw [loadAt_whole w n hw, Option.map_some']

theorem windowBijection_LE (n W : Nat) (hW : 2 ^ W = 256 ^ n) :
    windowBijection n W (fun w d => (loadAt w (unalignedIndices d n)).map leValue) := by
  refine ⟨fun w1 w2 h1 h2 h => getLE_window_injective n w1 w2 h1 h2 h, fun v hv => ?_,
    fun w hw => ?_⟩
  · exact getLE_window_surjective n v (hW ▸ hv)
  · refine ⟨leValue w, ?_, ?_⟩
    · rw [hW, ← hw]
      exact leValue_lt w
    · show (loadAt w (unalignedIndices 0 n)).map leValue = _
      rw [loadAt_whole w n hw, Option.map_some']

theorem getUInt16BE_fun (bo : ByteOrder) :
    getUInt16BE bo = fun w d => (loadAt w (unalignedIndices d 2)).map beValue := by
  funext w d; exact getUInt16BE_eq bo w d

theorem getUInt32BE_fun (bo : ByteOrder) :
    getUInt32BE bo = fun w d => (loadAt w (unalignedIndices d 4)).map beValue := by
  funext w d; exact getUInt32BE_eq bo w d

theorem getUInt64BE_fun (bo : ByteOrder) :
    getUInt64BE bo = fun w d => (loadAt w (unalignedIndices d 8)).map beValue := by
  funext w d; exact getUInt64BE_eq bo w d

theorem getUInt16LE_fun (bo : ByteOrder) :
    getUInt16LE bo = fun w d => (loadAt w (unalignedIndices d 2)).map leValue := by
  funext w d; exact getUInt16LE_eq bo w d

theorem getUInt32LE_fun (bo : ByteOrder) :
    getUInt32LE bo = fun w d => (loadAt w (unalignedIndices d 4)).map leValue := by
  funext w d; exact getUInt32LE_eq bo w d

theorem getUInt64LE_fun (bo : ByteOrder) :
    getUInt64LE bo = fun w d => (loadAt w (unalignedIndices d 8)).map leValue := by
  funext w d; exact getUInt64LE_eq bo w d

/-- C16. Store is the inverse of get in the other direction too: for each
width W in 16, 32, 64, each endianness, every buffer and every offset `o` with
`o + W/8 ≤ buffer.length`, `storeUIntW_E(buffer + o, getUIntW_E(buffer + o))`
succeeds and leaves the whole buffer unchanged; and each `getUIntW_E` is a
bijection between the windows of W/8 bytes and the W-bit values. -/
theorem C16_store_after_get_is_identity (bo : ByteOrder) (buffer : List byte) (o : Nat) :
    (o + 2 ≤ buffer.length →
      (getUInt16BE bo buffer o).bind (fun v => storeUInt16BE bo buffer o v) = some buffer ∧
      (getUInt16LE bo buffer o).bind (fun v => storeUInt16LE bo buffer o v) = some buffer) ∧
    (o + 4 ≤ buffer.length →
      (getUInt32BE bo buffer o).bind (fun v => storeUInt32BE bo buffer o v) = some buffer ∧
      (getUInt32LE bo buffer o).bind (fun v => storeUInt32LE bo buffer o v) = some buffer) ∧
    (o + 8 ≤ buffer.length →
      (getUInt64BE bo buffer o).bind (fun v => storeUInt64BE bo buffer o v) = some buffer ∧
      (getUInt64LE bo buffer o).bind (fun v => storeUInt64LE bo buffer o v) = some buffer) ∧
    windowBijection 2 16 (getUInt16BE bo) ∧ windowBijection 2 16 (getUInt16LE bo) ∧
    windowBijection 4 32 (getUInt32BE bo) ∧ windowBijection 4 32 (getUInt32LE bo) ∧
    windowBijection 8 64 (getUInt64BE bo) ∧ windowBijection 8 64 (getUInt64LE bo) := by
  refine ⟨fun h => ⟨?_, ?_⟩, fun h => ⟨?_, ?_⟩, fun h => ⟨?_, ?_⟩, ?_, ?_, ?_, ?_, ?_, ?_⟩
  · simp only [getUInt16BE_eq, storeUInt16BE_eq]; exact store_get_BE buffer o 2 h
  · simp only [getUInt16LE_eq, storeUInt16LE_eq]; exact store_get_LE buffer o 2 h
  · simp only [getUInt32BE_eq, storeUInt32BE_eq]; exact store_get_BE buffer o 4 h
  · simp only [getUInt32LE_eq, storeUInt32LE_eq]; exact store_get_LE buffer o 4 h
  · simp only [getUInt64BE_eq, storeUInt64BE_eq]; exact store_get_BE buffer o 8 h
  · simp only [getUInt64LE_eq, storeUInt64LE_eq]; exact store_get_LE buffer o 8 h
  · rw [getUInt16BE_fun]; exact windowBijection_BE 2 16 (by norm_num)
  · rw [getUInt16LE_fun]; exact windowBijection_LE 2 16 (by norm_num)
  · rw [getUInt32BE_fun]; exact windowBijection_BE 4 32 (by norm_num)
  · rw [getUInt32LE_fun]; exact windowBijection_LE 4 32 (by norm_num)
  · rw [getUInt64BE_fun]; exact windowBijection_BE 8 64 (by norm_num)
  · rw [getUInt64LE_fun]; exact windowBijection_LE 8 64 (by norm_num)

theorem C16_witness :
    ((getUInt16BE ByteOrder.LITTLE_ENDIAN [1, 2, 3, 4, 5, 6, 7, 8, 9, 10] 1).bind
        (fun v => storeUInt16BE ByteOrder.LITTLE_ENDIAN [1, 2, 3, 4, 5, 6, 7, 8, 9, 10] 1 v)
        = some [1, 2, 3, 4, 5, 6, 7, 8, 9, 10] ∧
      (getUInt16LE ByteOrder.LITTLE_ENDIAN [1, 2, 3, 4, 5, 6, 7, 8, 9, 10] 1).bind
        (fun v => storeUInt16LE ByteOrder.LITTLE_ENDIAN [1, 2, 3, 4, 5, 6, 7, 8, 9, 10] 1 v)
        = some [1, 2, 3, 4, 5, 6, 7, 8, 9, 10]) ∧
    ((getUInt32BE ByteOrder.LITTLE_ENDIAN [1, 2, 3, 4, 5, 6, 7, 8, 9, 10] 1).bind
        (fun v => storeUInt32BE ByteOrder.LITTLE_ENDIAN [1, 2, 3, 4, 5, 6, 7, 8, 9, 10] 1 v)
        = some [1, 2, 3, 4, 5, 6, 7, 8, 9, 10] ∧
      (getUInt32LE ByteOrder.LITTLE_ENDIAN [1, 2, 3, 4, 5, 6, 7, 8, 9, 10] 1).bind
        (fun v => storeUInt32LE ByteOrder.LITTLE_ENDIAN [1, 2, 3, 4, 5, 6, 7, 8, 9, 10] 1 v)
        = some [1, 2, 3, 4, 5, 6, 7, 8, 9, 10]) ∧
    ((getUInt64BE ByteOrder.LITTLE_ENDIAN [1, 2, 3, 4, 5, 6, 7, 8, 9, 10] 1).bind
        (fun v => storeUInt64BE ByteOrder.LITTLE_ENDIAN [1, 2, 3, 4, 5, 6, 7, 8, 9, 10] 1 v)
        = some [1, 2, 3, 4, 5, 6, 7, 8, 9, 10] ∧
      (getUInt64LE ByteOrder.LITTLE_ENDIAN [1, 2, 3, 4, 5, 6, 7, 8, 9, 10] 1).bind
        (fun v => storeUInt64LE ByteOrder.LITTLE_ENDIAN [1, 2, 3, 4, 5, 6, 7, 8, 9, 10] 1 v)
        = some [1, 2, 3, 4, 5, 6, 7, 8, 9, 10]) :=
  have h := C16_store_after_get_is_identity ByteOrder.LITTLE_ENDIAN
    [1, 2, 3, 4, 5, 6, 7, 8, 9, 10] 1
  ⟨h.1 (by decide), h.2.1 (by decide), h.2.2.1 (by decide)⟩

/-! ## Chained cursor accesses -/

theorem loadAt_congr (m1 m2 : List byte) (is : List Nat)
    (h : ∀ i ∈ is, m2[i]? = m1[i]?) : loadAt m2 is = loadAt m1 is := by
  induction is with
  | nil => rfl
  | cons i is ih =>
    rw [loadAt, loadAt, h i (List.mem_cons_self i is),
      ih (fun j hj => h j (List.mem_cons_of_mem i hj))]

theorem loadAt_splice_before (mem : List byte) (o1 n1 o2 n2 : Nat) (bs : List byte)
    (hn : bs.length = n2) (h : o2 + n2 ≤ mem.length) (hd : o1 + n1 ≤ o2) :
    loadAt (mem.take o2 ++ bs ++ mem.drop (o2 + n2)) (unalignedIndices o1 n1)
      = loadAt mem (unalignedIndices o1 n1) := by
  apply loadAt_congr
  intro i hi
  simp only [unalignedIndices, List.mem_range'_1] at hi
  exact splice_getElem?_outside mem o2 n2 bs hn h i (Or.inl (by omega))

theorem encodeUInt16BE_spec (bo : ByteOrder) (SIZE_MAX : Nat) (mem : List byte) (o v : Nat)
    (hsize : mem.length ≤ SIZE_MAX) (h : o + 2 ≤ mem.length) :
    encodeUInt16BE bo SIZE_MAX mem o v
      = some (mem.take o ++ beBytes 2 v ++ mem.drop (o + 2), o + 2) := by
  rw [encodeUInt16BE_eq, storeUInt16BE_eq, storeBE_window mem o 2 v h, Option.map_some',
    offset_no_wrap SIZE_MAX _ o 2 hsize h]

theorem encodeUInt32BE_spec (bo : ByteOrder) (SIZE_MAX : Nat) (mem : List byte) (o v : Nat)
    (hsize : mem.length ≤ SIZE_MAX) (h : o + 4 ≤ mem.length) :
    encodeUInt32BE bo SIZE_MAX mem o v
      = some (mem.take o ++ beBytes 4 v ++ mem.drop (o + 4), o + 4) := by
  rw [encodeUInt32BE_eq, storeUInt32BE_eq, storeBE_window mem o 4 v h, Option.map_some',
    offset_no_wrap SIZE_MAX _ o 4 hsize h]

theorem encodeUInt64BE_spec (bo : ByteOrder) (SIZE_MAX : Nat) (mem : List byte) (o v : Nat)
    (hsize : mem.length ≤ SIZE_MAX) (h : o + 8 ≤ mem.length) :
    encodeUInt64BE bo SIZE_MAX mem o v
      = some (mem.take o ++ beBytes 8 v ++ mem.drop (o + 8), o + 8) := by
  rw [encodeUInt64BE_eq, storeUInt64BE_eq, storeBE_window mem o 8 v h, Option.map_some',
    offset_no_wrap SIZE_MAX _ o 8 hsize h]

theorem decodeUInt16BE_spec (bo : ByteOrder) (SIZE_MAX : Nat) (mem : List byte) (o : Nat)
    (bs : List byte) (hsize : mem.length ≤ SIZE_MAX) (h : o + 2 ≤ mem.length)
    (hl : loadAt mem (unalignedIndices o 2) = some bs) :
    decodeUInt16BE bo SIZE_MAX mem o = some (o + 2, beValue bs) := by
  rw [decodeUInt16BE_eq, getUInt16BE_eq, hl, Option.map_some', Option.map_some',
    offset_no_wrap SIZE_MAX _ o 2 hsize h]

theorem decodeUInt32BE_spec (bo : ByteOrder) (SIZE_MAX : Nat) (mem : List byte) (o : Nat)
    (bs : List byte) (hsize : mem.length ≤ SIZE_MAX) (h : o + 4 ≤ mem.length)
    (hl : loadAt mem (unalignedIndices o 4) = some bs) :
    decodeUInt32BE bo SIZE_MAX mem o = some (o + 4, beValue bs) := by
  rw [decodeUInt32BE_eq, getUInt32BE_eq, hl, Option.map_some', Option.map_some',
    offset_no_wrap SIZE_MAX _ o 4 hsize h]

theorem decodeUInt64BE_spec (bo : ByteOrder) (SIZE_MAX : Nat) (mem : List byte) (o : Nat)
    (bs : List byte) (hsize : mem.length ≤ SIZE_MAX) (h : o + 8 ≤ mem.length)
    (hl : loadAt mem (unalignedIndices o 8) = some bs) :
    decodeUInt64BE bo SIZE_MAX mem o = some (o + 8, beValue bs) := by
  rw [decodeUInt64BE_eq, getUInt64BE_eq, hl, Option.map_some', Option.map_some',
    offset_no_wrap SIZE_MAX _ o 8 hsize h]

/-- C17. Chained cursor encodes do not overlap and decode back in order: for
every 16-bit `x`, 32-bit `y`, 64-bit `z`, every buffer (an object, so its
length fits in `size_t`) and every start offset `o` with
`o + 14 ≤ buffer.length`, running `encodeUInt16BE(x)`, `encodeUInt32BE(y)`,
`encodeUInt64BE(z)` with one cursor started at `o`, then `decodeUInt16BE`,
`decodeUInt32BE`, `decodeUInt64BE` with one cursor started at `o`, succeeds,
returns `x`, `y`, `z` in that order, and leaves both cursors at `o + 14`. -/
theorem C17_chained_encode_decode (bo : ByteOrder) (SIZE_MAX : Nat) (buffer : List byte)
    (o x y z : Nat) (hsize : buffer.length ≤ SIZE_MAX) (h : o + 14 ≤ buffer.length)
    (hx : x < 2 ^ 16) (hy : y < 2 ^ 32) (hz : z < 2 ^ 64) :
    (do
      let e1 ← encodeUInt16BE bo SIZE_MAX buffer o x
      let e2 ← encodeUInt32BE bo SIZE_MAX e1.1 e1.2 y
      let e3 ← encodeUInt64BE bo SIZE_MAX e2.1 e2.2 z
      let d1 ← decodeUInt16BE bo SIZE_MAX e3.1 o
      let d2 ← decodeUInt32BE bo SIZE_MAX e3.1 d1.1
      let d3 ← decodeUInt64BE bo SIZE_MAX e3.1 d2.1
      pure (d1.2, d2.2, d3.2, e3.2, d3.1))
      = some (x, y, z, o + 14, o + 14) := by
  have hX := beBytes_length 2 x
  have hY := beBytes_length 4 y
  have hZ := beBytes_length 8 z
  have l1 := splice_length buffer o 2 _ hX (by omega)
  have h1 := encodeUInt16BE_spec bo SIZE_MAX buffer o x hsize (by omega)
  generalize hb1 : buffer.take o ++ beBytes 2 x ++ buffer.drop (o + 2) = b1 at h1 l1
  have l2 := splice_length b1 (o + 2) 4 _ hY (by omega)
  have h2 := encodeUInt32BE_spec bo SIZE_MAX b1 (o + 2) y (by omega) (by omega)
  generalize hb2 : b1.take (o + 2) ++ beBytes 4 y ++ b1.drop (o + 2 + 4) = b2 at h2 l2
  have l3 := splice_length b2 (o + 2 + 4) 8 _ hZ (by omega)
  have h3 := encodeUInt64BE_spec bo SIZE_MAX b2 (o + 2 + 4) z (by omega) (by omega)
  generalize hb3 : b2.take (o + 2 + 4) ++ beBytes 8 z ++ b2.drop (o + 2 + 4 + 8) = b3 at h3 l3
  have g1 : loadAt b3 (unalignedIndices o 2) = some (beBytes 2 x) := by
    rw [← hb3, loadAt_splice_before b2 o 2 (o + 2 + 4) 8 _ hZ (by omega) (by omega), ← hb2,
      loadAt_splice_before b1 o 2 (o + 2) 4 _ hY (by omega) (by omega), ← hb1,
      loadAt_splice buffer o 2 _ hX (by omega)]
  have g2 : loadAt b3 (unalignedIndices (o + 2) 4) = some (beBytes 4 y) := by
    rw [← hb3, loadAt_splice_before b2 (o + 2) 4 (o + 2 + 4) 8 _ hZ (by omega) (by omega),
      ← hb2, loadAt_splice b1 (o + 2) 4 _ hY (by omega)]
  have g3 : loadAt b3 (unalignedIndices (o + 2 + 4) 8) = some (beBytes 8 z) := by
    rw [← hb3, loadAt_splice b2 (o + 2 + 4) 8 _ hZ (by omega)]
  have d1 := decodeUInt16BE_spec bo SIZE_MAX b3 o _ (by omega) (by omega) g1
  have d2 := decodeUInt32BE_spec bo SIZE_MAX b3 (o + 2) _ (by omega) (by omega) g2
  have d3 := decodeUInt64BE_spec bo SIZE_MAX b3 (o + 2 + 4) _ (by omega) (by omega) g3
  simp only [h1, h2, h3, d1, d2, d3, Option.bind_eq_bind, Option.some_bind, Option.pure_def,
    beValue_beBytes]
  have e16 : x % 256 ^ 2 = x := Nat.mod_eq_of_lt (by norm_num at hx ⊢; exact hx)
  have e32 : y % 256 ^ 4 = y := Nat.mod_eq_of_lt (by norm_num at hy ⊢; exact hy)
  have e64 : z % 256 ^ 8 = z := Nat.mod_eq_of_lt (by norm_num at hz ⊢; exact hz)
  rw [e16, e32, e64]

theorem C17_witness :
    (do
      let e1 ← encodeUInt16BE ByteOrder.LITTLE_ENDIAN 18446744073709551615
        [0, 0, 0, 0, 0, 0, 0, 0, 0, 0, 0, 0, 0, 0, 0, 0] 1 0xABCD
      let e2 ← encodeUInt32BE ByteOrder.LITTLE_ENDIAN 18446744073709551615 e1.1 e1.2 0xDEADBEEF
      let e3 ← encodeUInt64BE ByteOrder.LITTLE_ENDIAN 18446744073709551615 e2.1 e2.2
        0x0123456789ABCDEF
      let d1 ← decodeUInt16BE ByteOrder.LITTLE_ENDIAN 18446744073709551615 e3.1 1
      let d2 ← decodeUInt32BE ByteOrder.LITTLE_ENDIAN 18446744073709551615 e3.1 d1.1
      let d3 ← decodeUInt64BE ByteOrder.LITTLE_ENDIAN 18446744073709551615 e3.1 d2.1
      pure (d1.2, d2.2, d3.2, e3.2, d3.1))
      = some (0xABCD, 0xDEADBEEF, 0x0123456789ABCDEF, 1 + 14, 1 + 14) :=
  C17_chained_encode_decode ByteOrder.LITTLE_ENDIAN 18446744073709551615
    [0, 0, 0, 0, 0, 0, 0, 0, 0, 0, 0, 0, 0, 0, 0, 0] 1 0xABCD 0xDEADBEEF 0x0123456789ABCDEF
    (by decide) (by decide) (by decide) (by decide) (by decide)

/-! ## Reading with the opposite endianness -/

theorem cross_BE_LE (mem : List byte) (o n v : Nat) (h : o + n ≤ mem.length) :
    (storeAt mem (unalignedIndices o n) (beBytes n v)).bind
        (fun m => (loadAt m (unalignedIndices o n)).map leValue)
      = some (bswap n v) := by
  rw [storeBE_window mem o n v h, Option.some_bind,
    loadAt_splice mem o n _ (beBytes_length n v) h, Option.map_some']
  rfl

theorem cross_LE_BE (mem : List byte) (o n v : Nat) (h : o + n ≤ mem.length) :
    (storeAt mem (unalignedIndices o n) (leBytes n v)).bind
        (fun m => (loadAt m (unalignedIndices o n)).map beValue)
      = some (bswap n v) := by
  rw [storeLE_window mem o n v h, Option.some_bind,
    loadAt_splice mem o n _ (leBytes_length n v) h, Option.map_some',
    beValue_eq_leValue_reverse]
  rfl

theorem some_eq_some_comm_iff (a b : Nat) : (some a = some b) ↔ a = b :=
  ⟨Option.some.inj, congrArg some⟩

/-- C18. Reading with the opposite endianness yields the byte-reversed value:
for each width W in 16, 32, 64, every value `v`, every buffer and pointer `o`
with W/8 bytes available and either native byte order, `getUIntW_LE` after
`storeUIntW_BE(v)` returns the W-bit byte swap of `v`, and so does
`getUIntW_BE` after `storeUIntW_LE(v)`; hence each returns `v` exactly when
`v` is unchanged by byte reversal. The byte swap of `v` has the bytes of `v`
in reverse order. -/
theorem C18_opposite_endianness_reads_byte_swap (bo : ByteOrder) (buffer : List byte)
    (o v : Nat) :
    (o + 2 ≤ buffer.length →
      (storeUInt16BE bo buffer o v).bind (fun m => getUInt16LE bo m o) = some (bswap_16 v) ∧
      (storeUInt16LE bo buffer o v).bind (fun m => getUInt16BE bo m o) = some (bswap_16 v) ∧
      ((storeUInt16BE bo buffer o v).bind (fun m => getUInt16LE bo m o) = some v
        ↔ bswap_16 v = v) ∧
      ((storeUInt16LE bo buffer o v).bind (fun m => getUInt16BE bo m o) = some v
        ↔ bswap_16 v = v)) ∧
    (o + 4 ≤ buffer.length →
      (storeUInt32BE bo buffer o v).bind (fun m => getUInt32LE bo m o)
        = some (__builtin_bswap32 v) ∧
      (storeUInt32LE bo buffer o v).bind (fun m => getUInt32BE bo m o)
        = some (__builtin_bswap32 v) ∧
      ((storeUInt32BE bo buffer o v).bind (fun m => getUInt32LE bo m o) = some v
        ↔ __builtin_bswap32 v = v) ∧
      ((storeUInt32LE bo buffer o v).bind (fun m => getUInt32BE bo m o) = some v
        ↔ __builtin_bswap32 v = v)) ∧
    (o + 8 ≤ buffer.length →
      (storeUInt64BE bo buffer o v).bind (fun m => getUInt64LE bo m o)
        = some (__builtin_bswap64 v) ∧
      (storeUInt64LE bo buffer o v).bind (fun m => getUInt64BE bo m o)
        = some (__builtin_bswap64 v) ∧
      ((storeUInt64BE bo buffer o v).bind (fun m => getUInt64LE bo m o) = some v
        ↔ __builtin_bswap64 v = v) ∧
      ((storeUInt64LE bo buffer o v).bind (fun m => getUInt64BE bo m o) = some v
        ↔ __builtin_bswap64 v = v)) ∧
    bswap_16 v = v % 256 * 256 + v / 256 % 256 ∧
    __builtin_bswap32 v
      = v % 256 * 256 ^ 3 + v / 256 % 256 * 256 ^ 2 + v / 256 ^ 2 % 256 * 256
        + v / 256 ^ 3 % 256 ∧
    __builtin_bswap64 v
      = v % 256 * 256 ^ 7 + v / 256 % 256 * 256 ^ 6 + v / 256 ^ 2 % 256 * 256 ^ 5
        + v / 256 ^ 3 % 256 * 256 ^ 4 + v / 256 ^ 4 % 256 * 256 ^ 3
        + v / 256 ^ 5 % 256 * 256 ^ 2 + v / 256 ^ 6 % 256 * 256 + v / 256 ^ 7 % 256 := by
  refine ⟨fun h => ?_, fun h => ?_, fun h => ?_, bswap_16_eq v, __builtin_bswap32_eq v,
    __builtin_bswap64_eq v⟩
  · have a : (storeUInt16BE bo buffer o v).bind (fun m => getUInt16LE bo m o)
        = some (bswap_16 v) := by
      simp only [storeUInt16BE_eq, getUInt16LE_eq]; exact cross_BE_LE buffer o 2 v h
    have b : (storeUInt16LE bo buffer o v).bind (fun m => getUInt16BE bo m o)
        = some (bswap_16 v) := by
      simp only [storeUInt16LE_eq, getUInt16BE_eq]; exact cross_LE_BE buffer o 2 v h
    exact ⟨a, b, by rw [a, some_eq_some_comm_iff], by rw [b, some_eq_some_comm_iff]⟩
  · have a : (storeUInt32BE bo buffer o v).bind (fun m => getUInt32LE bo m o)
        = some (__builtin_bswap32 v) := by
      simp only [storeUInt32BE_eq, getUInt32LE_eq]; exact cross_BE_LE buffer o 4 v h
    have b : (storeUInt32LE bo buffer o v).bind (fun m => getUInt32BE bo m o)
        = some (__builtin_bswap32 v) := by
      simp only [storeUInt32LE_eq, getUInt32BE_eq]; exact cross_LE_BE buffer o 4 v h
    exact ⟨a, b, by rw [a, some_eq_some_comm_iff], by rw [b, some_eq_some_comm_iff]⟩
  · have a : (storeUInt64BE bo buffer o v).bind (fun m => getUInt64LE bo m o)
        = some (__builtin_bswap64 v) := by
      simp only [storeUInt64BE_eq, getUInt64LE_eq]; exact cross_BE_LE buffer o 8 v h
    have b : (storeUInt64LE bo buffer o v).bind (fun m => getUInt64BE bo m o)
        = some (__builtin_bswap64 v) := by
      simp only [storeUInt64LE_eq, getUInt64BE_eq]; exact cross_LE_BE buffer o 8 v h
    exact ⟨a, b, by rw [a, some_eq_some_comm_iff], by rw [b, some_eq_some_comm_iff]⟩

theorem C18_witness :
    ((storeUInt16BE ByteOrder.BIG_ENDIAN [1, 2, 3, 4, 5, 6, 7, 8, 9, 10] 1 0x1234).bind
          (fun m => getUInt16LE ByteOrder.BIG_ENDIAN m 1) = some 0x3412 ∧
      (storeUInt16LE ByteOrder.BIG_ENDIAN [1, 2, 3, 4, 5, 6, 7, 8, 9, 10] 1 0x1234).bind
          (fun m => getUInt16BE ByteOrder.BIG_ENDIAN m 1) = some 0x3412 ∧
      ((storeUInt16BE ByteOrder.BIG_ENDIAN [1, 2, 3, 4, 5, 6, 7, 8, 9, 10] 1 0x1234).bind
          (fun m => getUInt16LE ByteOrder.BIG_ENDIAN m 1) = some 0x1234
        ↔ bswap_16 0x1234 = 0x1234) ∧
      ((storeUInt16LE ByteOrder.BIG_ENDIAN [1, 2, 3, 4, 5, 6, 7, 8, 9, 10] 1 0x1234).bind
          (fun m => getUInt16BE ByteOrder.BIG_ENDIAN m 1) = some 0x1234
        ↔ bswap_16 0x1234 = 0x1234)) ∧
    ((storeUInt32BE ByteOrder.BIG_ENDIAN [1, 2, 3, 4, 5, 6, 7, 8, 9, 10] 1 0x1234).bind
          (fun m => getUInt32LE ByteOrder.BIG_ENDIAN m 1) = some 0x34120000 ∧
      (storeUInt32LE ByteOrder.BIG_ENDIAN [1, 2, 3, 4, 5, 6, 7, 8, 9, 10] 1 0x1234).bind
          (fun m => getUInt32BE ByteOrder.BIG_ENDIAN m 1) = some 0x34120000 ∧
      ((storeUInt32BE ByteOrder.BIG_ENDIAN [1, 2, 3, 4, 5, 6, 7, 8, 9, 10] 1 0x1234).bind
          (fun m => getUInt32LE ByteOrder.BIG_ENDIAN m 1) = some 0x1234
        ↔ __builtin_bswap32 0x1234 = 0x1234) ∧
      ((storeUInt32LE ByteOrder.BIG_ENDIAN [1, 2, 3, 4, 5, 6, 7, 8, 9, 10] 1 0x1234).bind
          (fun m => getUInt32BE ByteOrder.BIG_ENDIAN m 1) = some 0x1234
        ↔ __builtin_bswap32 0x1234 = 0x1234)) ∧
    ((storeUInt64BE ByteOrder.BIG_ENDIAN [1, 2, 3, 4, 5, 6, 7, 8, 9, 10] 1 0x1234).bind
          (fun m => getUInt64LE ByteOrder.BIG_ENDIAN m 1) = some 0x3412000000000000 ∧
      (storeUInt64LE ByteOrder.BIG_ENDIAN [1, 2, 3, 4, 5, 6, 7, 8, 9, 10] 1 0x1234).bind
          (fun m => getUInt64BE ByteOrder.BIG_ENDIAN m 1) = some 0x3412000000000000 ∧
      ((storeUInt64BE ByteOrder.BIG_ENDIAN [1, 2, 3, 4, 5, 6, 7, 8, 9, 10] 1 0x1234).bind
          (fun m => getUInt64LE ByteOrder.BIG_ENDIAN m 1) = some 0x1234
        ↔ __builtin_bswap64 0x1234 = 0x1234) ∧
      ((storeUInt64LE ByteOrder.BIG_ENDIAN [1, 2, 3, 4, 5, 6, 7, 8, 9, 10] 1 0x1234).bind
          (fun m => getUInt64BE ByteOrder.BIG_ENDIAN m 1) = some 0x1234
        ↔ __builtin_bswap64 0x1234 = 0x1234)) :=
  have h := C18_opposite_endianness_reads_byte_swap ByteOrder.BIG_ENDIAN
    [1, 2, 3, 4, 5, 6, 7, 8, 9, 10] 1 0x1234
  ⟨h.1 (by decide), h.2.1 (by decide), h.2.2.1 (by decide)⟩

end Numeric
